import Mathlib

/-!
# Verification of the stage-based DAG orchestration engine

A shallow embedding, in Lean 4, of the core orchestration engine found in
`backend/pipeline/core/orchestrator.py` of the ETL_pipeline_gui repository:

* variable/environment expansion (`_expand`, regexes `_DOLLAR` and `_BRACES`);
* the `Job` record, the `JobDAG` dependency graph (`_build_graph`,
  `get_ready_jobs`, `topological_sort_within_stage`);
* the `JobExecutor` extract pipeline (`execute_extract_job`);
* the top-level `orchestrator` driver: per-stage readiness loop, the
  `on_error` policy, database setup and the `finally`-block cleanup.

Python dictionaries are modelled as association lists (the source keys jobs
and environment variables by unique names), mutation as explicit state
passing, and raised exceptions as `Except` / explicit abort flags.  Each
definition is translated from the Python source; theorems about the spec's
claims follow at the end of the file.
-/

namespace ETL

/-! ## Environment and variable expansion

Source: `orchestrator.py`, lines 41-59.

```python
_DOLLAR = re.compile(r"\$\x7b([^}]+)\x7d")
_BRACES = re.compile(r"\x7b([A-Za-z0-9_]+)\x7d")

def _expand(obj, env):
    if obj is None: return None
    if isinstance(obj, str):
        s = _DOLLAR.sub(lambda m: str(env.get(m.group(1), "")), obj)
        s = _BRACES.sub(lambda m: str(env.get(m.group(1), "")), s)
        return s
    if isinstance(obj, Mapping): return {k: _expand(v, env) for k, v in obj.items()}
    if isinstance(obj, list): return [_expand(v, env) for v in obj]
    if isinstance(obj, tuple): return tuple(_expand(v, env) for v in obj)
    return obj
```
-/

/-- The environment: a mapping from variable names to string values, modelled
as an association list with unique keys (the source builds it as a Python
dict).  Values are strings; `str()` of a string is itself. -/
abbrev Env : Type := List (String × String)

/-- Python `env.get(k)`: first (unique) binding of `k`. -/
def envGet (env : Env) (k : String) : Option String :=
  match env with
  | [] => none
  | (k', v) :: t => if k' = k then some v else envGet t k

/-- The replacement text used by both substitution lambdas:
`str(env.get(name, ""))` — the value of `name`, or the empty string when
`name` is not a key of the environment.  Stated on the character list of the
name. -/
def envVal (env : Env) (name : List Char) : List Char :=
  ((envGet env (String.mk name)).getD "").data

/-- Characters matched by `[A-Za-z0-9_]` in the `_BRACES` regex. -/
def isWordChar (c : Char) : Bool :=
  (c ≥ 'A' && c ≤ 'Z') || (c ≥ 'a' && c ≤ 'z') || (c ≥ '0' && c ≤ '9') || c == '_'

/-- Scan for the first `\x7d` (closing brace): returns the characters before
it and the remainder after it, or `none` when the list holds no closing
brace.  This realises the `[^}]+` part of the `_DOLLAR` regex (the group is
everything up to the first closing brace). -/
def findClose : List Char → Option (List Char × List Char)
  | [] => none
  | c :: t =>
    if c = '}' then some ([], t)
    else (findClose t).map (fun p => (c :: p.1, p.2))

theorem findClose_length {l : List Char} {name rest : List Char}
    (h : findClose l = some (name, rest)) : rest.length < l.length := by
  induction l generalizing name rest with
  | nil => simp [findClose] at h
  | cons c t ih =>
    by_cases hc : c = '}'
    · simp [findClose, hc] at h
      simp [← h.2]
    · simp only [findClose, if_neg hc, Option.map_eq_some'] at h
      obtain ⟨p, hp, he⟩ := h
      cases he
      have := ih (show findClose t = some (p.1, p.2) by simpa using hp)
      simp only [List.length_cons]
      omega

/-- One global-substitution pass of the `_DOLLAR` regex
`\$\x7b([^}]+)\x7d`, exactly as `re.sub` scans: left-to-right,
non-overlapping, replacements not rescanned.  A match is a dollar sign, an
opening brace, one or more non-closing-brace characters (the group), and the
first closing brace; the match is replaced by `envVal env group`.  When the
group would be empty the attempt fails and scanning resumes one character
later; when no closing brace remains, no further match is possible. -/
def dollarSub (env : Env) : List Char → List Char
  | [] => []
  | '$' :: '{' :: rest =>
    match h : findClose rest with
    | some (name, rest') =>
      if name.isEmpty then '$' :: dollarSub env ('{' :: rest)
      else envVal env name ++ dollarSub env rest'
    | none => '$' :: '{' :: rest
  | c :: cs => c :: dollarSub env cs
termination_by l => l.length
decreasing_by
  all_goals simp only [List.length_cons]
  all_goals first
    | omega
    | (have hfc := findClose_length h; omega)

/-- One global-substitution pass of the `_BRACES` regex
`\x7b([A-Za-z0-9_]+)\x7d`: an opening brace, a maximal non-empty run of
word characters, and a closing brace immediately after; replaced by
`envVal env group`.  Failed attempts resume scanning one character later. -/
def bracesSub (env : Env) : List Char → List Char
  | [] => []
  | '{' :: cs =>
    match hd : cs.dropWhile isWordChar with
    | '}' :: rest' =>
      if (cs.takeWhile isWordChar).isEmpty then '{' :: bracesSub env cs
      else envVal env (cs.takeWhile isWordChar) ++ bracesSub env rest'
    | _ => '{' :: bracesSub env cs
  | c :: cs => c :: bracesSub env cs
termination_by l => l.length
decreasing_by
  all_goals simp only [List.length_cons]
  all_goals first
    | omega
    | (have h1 : (cs.dropWhile isWordChar).length ≤ cs.length :=
        List.Sublist.length_le (List.dropWhile_sublist isWordChar)
       rw [hd] at h1; simp only [List.length_cons] at h1; omega)

/-- The string branch of `_expand`: first the `_DOLLAR` pass, then the
`_BRACES` pass on its result. -/
def expandStr (env : Env) (s : String) : String :=
  String.mk (bracesSub env (dollarSub env s.data))

mutual
/-- A Python configuration value as walked by `_expand`: `None`, strings,
scalars that are returned unchanged (numbers, booleans), lists and
mappings (dicts keep their keys; only values are expanded). -/
inductive ConfigVal : Type where
  | nullv : ConfigVal
  | str (s : String) : ConfigVal
  | intv (n : Int) : ConfigVal
  | boolv (b : Bool) : ConfigVal
  | arr (vs : ConfigList) : ConfigVal
  | dict (kvs : ConfigDict) : ConfigVal
/-- A list of configuration values (Python `list` / `tuple`). -/
inductive ConfigList : Type where
  | nil : ConfigList
  | cons (v : ConfigVal) (t : ConfigList) : ConfigList
/-- A mapping from string keys to configuration values (Python `Mapping`),
in insertion order with unique keys. -/
inductive ConfigDict : Type where
  | nil : ConfigDict
  | cons (k : String) (v : ConfigVal) (t : ConfigDict) : ConfigDict
end

mutual
/-- `_expand(obj, env)`: recursively expand `${VAR}` and `{VAR}` in strings.
`None`, numbers and booleans are returned unchanged; mappings and sequences
are rebuilt with expanded values. -/
def _expand (env : Env) : ConfigVal → ConfigVal
  | .nullv => .nullv
  | .str s => .str (expandStr env s)
  | .intv n => .intv n
  | .boolv b => .boolv b
  | .arr vs => .arr (_expandList env vs)
  | .dict kvs => .dict (_expandDict env kvs)
/-- `_expand` over a sequence: `[_expand(v, env) for v in obj]`. -/
def _expandList (env : Env) : ConfigList → ConfigList
  | .nil => .nil
  | .cons v t => .cons (_expand env v) (_expandList env t)
/-- `_expand` over a mapping: `{k: _expand(v, env) for k, v in obj.items()}`. -/
def _expandDict (env : Env) : ConfigDict → ConfigDict
  | .nil => .nil
  | .cons k v t => .cons k (_expand env v) (_expandDict env t)
end

/-! ## Jobs and the dependency graph

Source: `orchestrator.py`, lines 65-160 (`Job`, `JobDAG`).
-/

/-- `Job.status`: `pending | running | success | failed | skipped`.  The
`skipped` value appears in the source's comment but is never assigned by
the engine. -/
inductive Status : Type where
  | pending | running | success | failed | skipped
deriving DecidableEq, Repr

/-- A `Job`: name, owning stage, dependency list (`config.get("depends_on",
[])`), the `type` field of its resolved runner config
(`runner_config.get("type", "")`, empty when absent), and its mutable
status (initially `"pending"`).  The remaining `Job` fields of the source
(timings, metrics, error text, output table) are reporting-only telemetry
and are not part of the control-flow model. -/
structure Job : Type where
  name : String
  stage : String
  depends_on : List String
  runnerType : String := ""
  status : Status := .pending
deriving DecidableEq, Repr

/-- Errors raised by the engine (all `ValueError` in the source, carrying a
formatted message; modelled structurally). -/
inductive PipeError : Type where
  /-- `ValueError(f"Job '{job.name}' depends on unknown job '{dep}'")` -/
  | unknownDependency (job dep : String)
  /-- `ValueError(f"Circular dependency detected in stage '{stage}'")` -/
  | cycleInStage (stage : String)
  /-- `ValueError(f"Cannot determine job type for stage '{stage}'. ...")` -/
  | cannotDetermineType (stage runner : String)
  /-- an exception raised inside a job executor (reader/engine/SQL failures
  etc.), abstracted; carries the failing job's name -/
  | jobException (job : String)
deriving DecidableEq, Repr

/-- The job names of a job list (keys of the `self.jobs` dict; the
orchestrator builds jobs from a name-keyed config dict, so names are
unique and the dict's values in insertion order are exactly the list). -/
def jobNames (jobs : List Job) : List String := jobs.map Job.name

/-- The first entry of `deps` that is not a known job name (the dependency
whose check raises first in `_build_graph`), if any. -/
def firstUnknown (names : List String) : List String → Option String
  | [] => none
  | d :: ds => if names.contains d then firstUnknown names ds else some d

/-- `JobDAG._build_graph`: iterate the jobs in order and each job's
`depends_on` in order; raise on the first dependency that is not a key of
`self.jobs`, otherwise record the edge `dep → job.name`.  Returns the edge
list in insertion order (the source stores it in a `defaultdict(set)` that
no other engine operation reads). -/
def _build_graph (names : List String) : List Job → Except PipeError (List (String × String))
  | [] => .ok []
  | j :: rest =>
    match firstUnknown names j.depends_on with
    | some d => .error (.unknownDependency j.name d)
    | none =>
      (_build_graph names rest).map
        (fun es => (j.depends_on.map (fun d => (d, j.name))) ++ es)

/-- `JobDAG(jobs)`: construction runs `_build_graph` and fails before any
job executes if a dependency is unknown. -/
def JobDAG.build (jobs : List Job) : Except PipeError (List (String × String)) :=
  _build_graph (jobNames jobs) jobs

/-- `JobDAG.get_ready_jobs(stage, completed)`: every job of the given stage
with status `pending` whose dependencies are all in `completed`, in job
order. -/
def get_ready_jobs (jobs : List Job) (stage : String) (completed : List String) : List Job :=
  jobs.filter fun j =>
    j.stage == stage && j.status == .pending && j.depends_on.all (fun d => completed.contains d)

/-! ### Same-stage topological sort (`topological_sort_within_stage`) -/

/-- `in_degree[k] += 1` on an association list. -/
def bumpDegree : List (String × Nat) → String → List (String × Nat)
  | [], _ => []
  | (k', v) :: t, k => if k' = k then (k', v + 1) :: t else (k', v) :: bumpDegree t k

/-- `in_degree[k] -= 1` on an association list. -/
def decDegree : List (String × Nat) → String → List (String × Nat)
  | [], _ => []
  | (k', v) :: t, k => if k' = k then (k', v - 1) :: t else (k', v) :: decDegree t k

/-- `stage_graph[dep].append(name)` on a `defaultdict(list)`. -/
def addEdge : List (String × List String) → String → String → List (String × List String)
  | [], k, v => [(k, [v])]
  | (k', vs) :: t, k, v =>
    if k' = k then (k', vs ++ [v]) :: t else (k', vs) :: addEdge t k v

/-- Association-list lookup (Python dict access with unique keys). -/
def alistGet {α : Type} : List (String × α) → String → Option α
  | [], _ => none
  | (k', v) :: t, k => if k' = k then some v else alistGet t k

/-- Build `in_degree` and `stage_graph` for the stage's jobs: for each stage
job, every dependency that is itself a stage job contributes the edge
`dep → job` and bumps the job's in-degree. -/
def buildStageDeg (jobs : List Job) (stageJobs : List String) :
    List (String × Nat) × List (String × List String) :=
  stageJobs.foldl
    (fun acc jobName =>
      match jobs.find? (fun j => j.name == jobName) with
      | none => acc
      | some j =>
        j.depends_on.foldl
          (fun acc2 dep =>
            if stageJobs.contains dep then
              (bumpDegree acc2.1 jobName, addEdge acc2.2 dep jobName)
            else acc2)
          acc)
    (stageJobs.map (fun n => (n, 0)), [])

/-- Kahn's algorithm queue loop: pop a node from the front, append it to the
result, decrement each neighbour's in-degree, and enqueue a neighbour that
reaches in-degree zero.  `fuel` bounds the loop; `stageJobs.length + 1` is
always enough since each node is enqueued at most once. -/
def kahnLoop : Nat → List String → List (String × Nat) → List (String × List String) →
    List String → List String
  | 0, _, _, _, acc => acc
  | _ + 1, [], _, _, acc => acc
  | fuel + 1, node :: q, deg, graph, acc =>
    let step :=
      ((alistGet graph node).getD []).foldl
        (fun (p : List (String × Nat) × List String) nb =>
          let d' := decDegree p.1 nb
          if (alistGet d' nb).getD 0 = 0 then (d', p.2 ++ [nb]) else (d', p.2))
        (deg, [])
    kahnLoop fuel (q ++ step.2) step.1 graph (acc ++ [node])

/-- `JobDAG.topological_sort_within_stage(stage)`: Kahn's algorithm over the
stage's jobs restricted to same-stage edges; raises `ValueError` (circular
dependency) when the produced order is shorter than the stage's job
count. -/
def topological_sort_within_stage (jobs : List Job) (stage : String) :
    Except PipeError (List String) :=
  let stageJobs := (jobs.filter (fun j => j.stage == stage)).map Job.name
  let dg := buildStageDeg jobs stageJobs
  let queue := stageJobs.filter (fun n => (alistGet dg.1 n).getD 0 = 0)
  let result := kahnLoop (stageJobs.length + 1) queue dg.1 dg.2 []
  if result.length ≠ stageJobs.length then .error (.cycleInStage stage)
  else .ok result

/-! ## The orchestrator driver

Source: `orchestrator.py`, lines 843-1086 (`orchestrator`): job-type
dispatch by runner type with a stage-name fallback, the per-stage readiness
loop, the `on_error` policy, and the `try/finally` resource teardown.

Job executors are heterogeneous external behavior (readers, SQL, writers);
the driver model abstracts one executed job's outcome by an oracle
`execOk : String → Bool` — `true` when `execute_*_job` returns normally,
`false` when its body raises (in which case the executor's `except` branch
has already set the job's status to `failed` and re-raised).  Everything
else (status writes, the completed-set, policy handling, ordering) is
translated from the driver's code.
-/

/-- The four job pipelines of `JobExecutor`. -/
inductive JobType : Type where
  | extract | stage | transform | load
deriving DecidableEq, Repr

/-- Python `sub in s` on character lists. -/
def hasSubstr (s sub : List Char) : Bool :=
  if sub.isPrefixOf s then true
  else
    match s with
    | [] => false
    | _ :: t => hasSubstr t sub

/-- ASCII lower-casing of a string's characters (`stage.lower()`; stage
names in the pipelines are ASCII). -/
def lowerChars (s : String) : List Char := s.data.map Char.toLower

/-- The driver's job-type dispatch: route by `runner_cfg.get("type", "")`;
with no (known) runner type, fall back to substring heuristics on the
lower-cased stage name; otherwise the dispatch raises `ValueError` before
any executor runs (`none`). -/
def determineJobType (stage runnerType : String) : Option JobType :=
  if runnerType = "reader" then some .extract
  else if runnerType = "stager" then some .stage
  else if runnerType = "transformer" then some .transform
  else if runnerType = "writer" then some .load
  else
    let sl := lowerChars stage
    if hasSubstr sl "extract".data then some .extract
    else if hasSubstr sl "stage".data || hasSubstr sl "stag".data then some .stage
    else if hasSubstr sl "transform".data then some .transform
    else if hasSubstr sl "load".data || hasSubstr sl "export".data then some .load
    else none

/-- Observable actions of one run, in program order: a write to a job's
`status` field, entry into an `execute_*_job` call, and
`completed_jobs.add(name)`. -/
inductive Event : Type where
  | assign (name : String) (s : Status)
  | exec (name : String) (t : JobType)
  | addCompleted (name : String)
deriving DecidableEq, Repr

/-- The driver's mutable state: the job objects, the completed-set
(a Python `set`, modelled as a duplicate-free insertion-ordered list), and
the trace of actions so far. -/
structure RunState : Type where
  jobs : List Job
  completed : List String
  trace : List Event
deriving Repr

/-- `job.status = s` for the (uniquely named) job `n`. -/
def setJobStatus (jobs : List Job) (n : String) (s : Status) : List Job :=
  jobs.map fun j => if j.name = n then { j with status := s } else j

/-- `completed_jobs.add(n)` (set semantics). -/
def addCompleted (c : List String) (n : String) : List String :=
  if c.contains n then c else c ++ [n]

/-- One `execute_*_job(job)` call: status becomes `running` on entry; on a
normal return the executor sets `success`; when the body raises, the
executor's `except` branch sets `failed` and re-raises.  Returns the new
state and whether the call raised. -/
def execUpdate (execOk : String → Bool) (st : RunState) (n : String) (t : JobType) :
    RunState × Bool :=
  let st1 : RunState :=
    { st with
      jobs := setJobStatus st.jobs n .running
      trace := st.trace ++ [.exec n t, .assign n .running] }
  if execOk n then
    ({ st1 with
        jobs := setJobStatus st1.jobs n .success
        trace := st1.trace ++ [.assign n .success] }, false)
  else
    ({ st1 with
        jobs := setJobStatus st1.jobs n .failed
        trace := st1.trace ++ [.assign n .failed] }, true)

/-- The driver's `except` branch: look up
`config.get("execution", {}).get("on_error", "stop")`; under `"stop"`
re-raise (abort); under `"continue"` set the job's status to `failed`, add
its name to the completed-set and carry on; any other value falls through
to the `else: raise` branch.  Returns the new state and the propagating
error, if any. -/
def handleJobError (onError : String) (st : RunState) (n : String) (e : PipeError) :
    RunState × Option PipeError :=
  if onError = "stop" then (st, some e)
  else if onError = "continue" then
    ({ st with
        jobs := setJobStatus st.jobs n .failed
        completed := addCompleted st.completed n
        trace := st.trace ++ [.assign n .failed, .addCompleted n] }, none)
  else (st, some e)

/-- The body of `for job in ready_jobs:` for one job: dispatch by type
(raising `ValueError` when the type cannot be determined), run the
executor, and on success add the job to the completed-set; any exception is
routed through the `on_error` policy. -/
def processJob (onError : String) (execOk : String → Bool) (st : RunState) (n : String) :
    RunState × Option PipeError :=
  match st.jobs.find? (fun j => j.name == n) with
  | none => (st, none)
  | some j =>
    match determineJobType j.stage j.runnerType with
    | none => handleJobError onError st n (.cannotDetermineType j.stage j.runnerType)
    | some t =>
      let r := execUpdate execOk st n t
      if r.2 then handleJobError onError r.1 n (.jobException n)
      else
        ({ r.1 with
            completed := addCompleted r.1.completed n
            trace := r.1.trace ++ [.addCompleted n] }, none)

/-- Process the snapshot of ready jobs in list order, stopping at the first
propagating exception. -/
def processReadyList (onError : String) (execOk : String → Bool) :
    RunState → List String → RunState × Option PipeError
  | st, [] => (st, none)
  | st, n :: rest =>
    let r := processJob onError execOk st n
    match r.2 with
    | some e => (r.1, some e)
    | none => processReadyList onError execOk r.1 rest

/-- The stage's `while True:` readiness loop: query
`get_ready_jobs(stage, completed)`, break when empty, otherwise process the
ready snapshot and loop.  `fuel` bounds the iterations; every processed
round removes at least one job from `pending`, so `jobs.length + 1` is
always enough to reach the `break`. -/
def stageLoop (onError : String) (execOk : String → Bool) (stage : String) :
    Nat → RunState → RunState × Option PipeError
  | 0, st => (st, none)
  | fuel + 1, st =>
    let ready := get_ready_jobs st.jobs stage st.completed
    if ready.isEmpty then (st, none)
    else
      let r := processReadyList onError execOk st (ready.map Job.name)
      match r.2 with
      | some e => (r.1, some e)
      | none => stageLoop onError execOk stage fuel r.1

/-- `for stage in stages_list:` — skip stages with no jobs, otherwise run
the readiness loop; a propagating exception aborts the remaining stages. -/
def runStages (onError : String) (execOk : String → Bool) :
    List String → RunState → RunState × Option PipeError
  | [], st => (st, none)
  | stage :: rest, st =>
    if (st.jobs.filter (fun j => j.stage == stage)).isEmpty then
      runStages onError execOk rest st
    else
      let r := stageLoop onError execOk stage (st.jobs.length + 1) st
      match r.2 with
      | some e => (r.1, some e)
      | none => runStages onError execOk rest r.1

/-- The initial run state: freshly constructed `Job` objects (all
`pending`), an empty completed-set, an empty trace. -/
def initState (jobs : List Job) : RunState :=
  { jobs := jobs, completed := [], trace := [] }

/-- The `try:`-block body of `orchestrator`: build the DAG (construction
failure is fatal before any job executes), then run the stages.  Returns
the final state and the exception propagating out of the body, if any. -/
def runBody (onError : String) (execOk : String → Bool) (stages : List String)
    (jobs : List Job) : RunState × Option PipeError :=
  match JobDAG.build jobs with
  | .error e => (initState jobs, some e)
  | .ok _ => runStages onError execOk stages (initState jobs)

/-! ### Database setup and the `finally`-block teardown

Source: `orchestrator.py`, lines 891-925 (setup, before the `try:`) and
1081-1086 (the `finally:` block):

```python
duckdb_con = None
db_engine = None
if warehouse_cfg:
    ...
    db_engine = get_database_engine(warehouse_cfg)
    duckdb_con = db_engine.connect(warehouse_cfg)
    ...
try:
    ...
finally:
    if db_engine and duckdb_con:
        db_engine.close(duckdb_con)
    elif duckdb_con:
        close_quietly(duckdb_con)
```

`close_quietly` is not defined or imported anywhere in the repository, so
reaching the `elif` branch would raise `NameError`.
-/

/-- A close call made by the `finally:` block. -/
inductive CloseAction : Type where
  /-- `db_engine.close(duckdb_con)` — through the engine abstraction. -/
  | engineClose
  /-- `close_quietly(duckdb_con)` — the legacy fallback (an undefined name). -/
  | legacyClose
deriving DecidableEq, Repr

/-- Database setup: with a truthy `warehouse_cfg`, obtain the engine plugin
(`get_database_engine`, which may raise) and then the connection
(`db_engine.connect`, which may raise); both assignments happen before the
`try:`, so a raise here propagates with no `finally:` to run.  The booleans
model truthiness of `db_engine` and `duckdb_con` after setup. -/
def setupDatabase (warehouseCfg : Bool) (getEngineOk : Bool) (connectOk : Bool) :
    Except PipeError (Bool × Bool) :=
  if warehouseCfg then
    if getEngineOk then
      if connectOk then .ok (true, true)
      else .error (.jobException "connect")
    else .error (.jobException "get_database_engine")
  else .ok (false, false)

/-- The `finally:` block's close calls:
`if db_engine and duckdb_con: db_engine.close(duckdb_con)
elif duckdb_con: close_quietly(duckdb_con)`. -/
def cleanupActions (dbEngine : Bool) (duckdbCon : Bool) : List CloseAction :=
  if dbEngine && duckdbCon then [.engineClose]
  else if duckdbCon then [.legacyClose]
  else []

/-- The result of one full `orchestrator(...)` invocation that reached the
`try:` block: the final driver state, the exception propagating out of the
body (re-raised after the `finally:`), and the close calls the `finally:`
block made. -/
structure OrchestratorResult : Type where
  state : RunState
  err : Option PipeError
  closes : List CloseAction
deriving Repr

/-- One full `orchestrator(...)` invocation: database setup (a raise here
propagates with no cleanup), then the `try:` body, then — on every exit
path of the body — the `finally:` close calls. -/
def orchestratorRun (warehouseCfg getEngineOk connectOk : Bool) (onError : String)
    (execOk : String → Bool) (stages : List String) (jobs : List Job) :
    Except PipeError OrchestratorResult :=
  match setupDatabase warehouseCfg getEngineOk connectOk with
  | .error e => .error e
  | .ok (eng, con) =>
    let body := runBody onError execOk stages jobs
    .ok { state := body.1, err := body.2, closes := cleanupActions eng con }

/-! ## The extract pipeline

Source: `orchestrator.py`, lines 187-353 (`execute_extract_job`).  The
reader's yield (`list(reader.read(...))`) enters as `tables`; the processor
chain (`_apply_processors`, lines 763-822) is a per-table transform that
returns `none` when a processor raises `SkipTable` (drop the table) and
`some` of the processed table otherwise (a processor raising any other
exception propagates, failing the job — outside this model, which covers
the non-raising paths the claims are about).  Tables are abstract values
`τ`; the in-memory table cache is a name-keyed Python dict. -/

/-- Python dict assignment `m[k] = v`: overwrite in place, else append. -/
def pyDictSet {α : Type} : List (String × α) → String → α → List (String × α)
  | [], k, v => [(k, v)]
  | (k', v') :: t, k, v =>
    if k' = k then (k, v) :: t else (k', v') :: pyDictSet t k v

/-- `execute_extract_job` (non-raising paths): with zero tables from the
reader the job succeeds at once; each table goes through the processor
chain and survivors are kept in order; with zero survivors the job
succeeds; otherwise, when the job's declared output-table name
(`config.get("output", {}).get("table")`) is truthy (present and
non-empty), only the first surviving table is stored under it — the
rest are discarded.  Returns the job's final status and the cache. -/
def execute_extract_job {τ : Type} (tables : List τ) (proc : τ → Option τ)
    (outputTable : Option String) (cache : List (String × τ)) :
    Status × List (String × τ) :=
  if tables.isEmpty then (.success, cache)
  else
    match tables.filterMap proc with
    | [] => (.success, cache)
    | kept0 :: _ =>
      match outputTable with
      | some nm => if nm = "" then (.success, cache) else (.success, pyDictSet cache nm kept0)
      | none => (.success, cache)

/-! ## Theorems: readiness query (C2) -/

theorem mem_get_ready_jobs (jobs : List Job) (stage : String)
    (completed : List String) (j : Job) :
    j ∈ get_ready_jobs jobs stage completed ↔
      j ∈ jobs ∧ j.stage = stage ∧ j.status = .pending ∧
        ∀ d ∈ j.depends_on, d ∈ completed := by
  simp only [get_ready_jobs, List.mem_filter, Bool.and_eq_true, beq_iff_eq,
    List.all_eq_true, List.elem_iff, decide_eq_true_eq]
  tauto

/-- **C2.** For every stage name and every completed-set,
`get_ready_jobs(stage, completed)` returns exactly those jobs whose stage
equals the argument, whose status is `pending`, and whose every
`depends_on` entry is a member of `completed` — with no condition on which
stage a dependency belongs to. -/
theorem C2_get_ready_jobs_characterization (jobs : List Job) (stage : String)
    (completed : List String) (j : Job) :
    j ∈ get_ready_jobs jobs stage completed ↔
      j ∈ jobs ∧ j.stage = stage ∧ j.status = .pending ∧
        ∀ d ∈ j.depends_on, d ∈ completed :=
  mem_get_ready_jobs jobs stage completed j

/-- Witness for C2 at a concrete input: a two-job set where exactly the
dependency-satisfied pending job of the queried stage is ready. -/
theorem C2_witness :
    let j1 : Job := { name := "a", stage := "s1", depends_on := [] }
    let j2 : Job := { name := "b", stage := "s1", depends_on := ["z"] }
    j1 ∈ get_ready_jobs [j1, j2] "s1" [] ∧ j2 ∉ get_ready_jobs [j1, j2] "s1" [] := by
  intro j1 j2
  constructor
  · exact (C2_get_ready_jobs_characterization [j1, j2] "s1" [] j1).mpr
      (by simp [j1, j2])
  · intro h
    have := (C2_get_ready_jobs_characterization [j1, j2] "s1" [] j2).mp h
    simp [j1, j2] at this

/-! ## Theorems: graph construction (C4) -/

theorem firstUnknown_eq_none_iff (names : List String) (ds : List String) :
    firstUnknown names ds = none ↔ ∀ d ∈ ds, d ∈ names := by
  induction ds with
  | nil => simp [firstUnknown]
  | cons d t ih =>
    by_cases hd : names.contains d
    · have hdm : d ∈ names := List.elem_iff.mp hd
      simp only [firstUnknown, if_pos hd, ih, List.mem_cons]
      constructor
      · rintro h x (rfl | hx)
        · exact hdm
        · exact h x hx
      · intro h x hx; exact h x (Or.inr hx)
    · simp only [firstUnknown, if_neg hd]
      constructor
      · intro h; cases h
      · intro h
        exact absurd (List.elem_iff.mpr (h d (by simp))) hd

theorem _build_graph_ok_iff (names : List String) (jobs : List Job) :
    (_build_graph names jobs).isOk = true ↔
      ∀ j ∈ jobs, ∀ d ∈ j.depends_on, d ∈ names := by
  induction jobs with
  | nil => simp [_build_graph, Except.isOk, Except.toBool]
  | cons j t ih =>
    cases hf : firstUnknown names j.depends_on with
    | some d =>
      simp only [_build_graph, hf, Except.isOk, Except.toBool]
      constructor
      · intro h; cases h
      · intro h
        have := (firstUnknown_eq_none_iff names j.depends_on).mpr (h j (by simp))
        rw [this] at hf; cases hf
    | none =>
      have hdeps := (firstUnknown_eq_none_iff names j.depends_on).mp hf
      simp only [_build_graph, hf]
      have hmap : ∀ (x : Except PipeError (List (String × String))) (f : List (String × String) → List (String × String)),
          (x.map f).isOk = x.isOk := by
        intro x f; cases x <;> rfl
      rw [hmap]
      rw [ih]
      constructor
      · intro h; intro j' hj'
        rcases List.mem_cons.mp hj' with rfl | hj'
        · exact hdeps
        · exact h j' hj'
      · intro h j' hj'; exact h j' (List.mem_cons_of_mem _ hj')

/-- **C4.** Building the dependency graph raises a `DependencyError`
(`ValueError` in the source) **iff** some job's `depends_on` contains a
name that is not a key of the job set; and when construction fails, the
orchestrator body raises before any job executes (its trace is empty). -/
theorem C4_build_graph_iff (jobs : List Job) :
    ((JobDAG.build jobs).isOk = true ↔
        ∀ j ∈ jobs, ∀ d ∈ j.depends_on, d ∈ jobNames jobs) ∧
      (∀ e, JobDAG.build jobs = .error e →
        ∀ onError execOk stages,
          (runBody onError execOk stages jobs).1.trace = [] ∧
          (runBody onError execOk stages jobs).2 = some e) := by
  refine ⟨_build_graph_ok_iff (jobNames jobs) jobs, ?_⟩
  intro e he onError execOk stages
  simp [runBody, he, initState]

/-- Witness for C4 at concrete inputs: a two-job set with a known
dependency builds; replacing the dependency by an unknown name fails, and
the failing run executes nothing. -/
theorem C4_witness :
    let a : Job := { name := "a", stage := "s", depends_on := [] }
    let b : Job := { name := "b", stage := "s", depends_on := ["a"] }
    let bad : Job := { name := "b", stage := "s", depends_on := ["ghost"] }
    (JobDAG.build [a, b]).isOk = true ∧
      (JobDAG.build [a, bad]).isOk = false ∧
      (runBody "stop" (fun _ => true) ["s"] [a, bad]).1.trace = [] := by
  intro a b bad
  refine ⟨?_, ?_, ?_⟩
  · exact (C4_build_graph_iff [a, b]).1.mpr (by decide)
  · rfl
  · exact ((C4_build_graph_iff [a, bad]).2 (.unknownDependency "b" "ghost") rfl
      "stop" (fun _ => true) ["s"]).1

/-! ## Theorems: extract pipeline (C7) -/

/-- **C7.** For every extract job (non-raising reader/processors): zero
tables from the reader, or zero survivors of the processor chain, ends the
job `success` and leaves the in-memory table cache untouched; a truthy
declared output-table name with at least one survivor ends the job
`success` and stores exactly the first survivor under that name — the
cache receives nothing else, so later survivors are discarded. -/
theorem C7_extract_job {τ : Type} (tables : List τ) (proc : τ → Option τ)
    (out : Option String) (cache : List (String × τ)) :
    (tables = [] → execute_extract_job tables proc out cache = (.success, cache)) ∧
      (tables.filterMap proc = [] →
        execute_extract_job tables proc out cache = (.success, cache)) ∧
      (∀ nm k rest, out = some nm → nm ≠ "" → tables.filterMap proc = k :: rest →
        execute_extract_job tables proc out cache = (.success, pyDictSet cache nm k)) := by
  refine ⟨?_, ?_, ?_⟩
  · intro h; simp [execute_extract_job, h]
  · intro h
    by_cases ht : tables.isEmpty
    · simp [execute_extract_job, ht]
    · simp [execute_extract_job, ht, h]
  · intro nm k rest hout hnm hkept
    have ht : tables.isEmpty = false := by
      cases tables with
      | nil => simp [List.filterMap] at hkept
      | cons x xs => rfl
    simp [execute_extract_job, ht, hkept, hout, hnm]

/-- Witness for C7 at concrete inputs: two surviving tables, a declared
output name — only the first survivor is stored; and an all-dropped run
stores nothing. -/
theorem C7_witness :
    execute_extract_job ([7, 8] : List Nat) some (some "t") [] = (.success, [("t", 7)]) ∧
      execute_extract_job ([7, 8] : List Nat) (fun _ => none) (some "t") [] =
        (.success, []) := by
  constructor
  · exact (C7_extract_job [7, 8] some (some "t") []).2.2 "t" 7 [8] rfl (by decide) rfl
  · exact (C7_extract_job [7, 8] (fun _ => none) (some "t") []).2.1 rfl

/-! ## Theorems: resource teardown (C9, C10) -/

/-- **C9.** For every run in which a warehouse connection was opened (a
truthy warehouse config, and the run reached the `try:` block), the
`finally:` block closes the connection through the database-engine
abstraction exactly once — whatever the body did: normal completion,
completion with failed jobs under `continue`, or a propagating exception
under `stop` (the policy, oracle, stages and jobs are universally
quantified, and the conclusion does not depend on `r.err`). -/
theorem C9_close_exactly_once (getEngineOk connectOk : Bool) (onError : String)
    (execOk : String → Bool) (stages : List String) (jobs : List Job)
    (r : OrchestratorResult)
    (h : orchestratorRun true getEngineOk connectOk onError execOk stages jobs = .ok r) :
    r.closes = [.engineClose] := by
  cases getEngineOk with
  | false => simp [orchestratorRun, setupDatabase] at h
  | true =>
    cases connectOk with
    | false => simp [orchestratorRun, setupDatabase] at h
    | true =>
      simp only [orchestratorRun, setupDatabase, if_pos rfl] at h
      cases h
      rfl

/-- Witness for C9 at a concrete input: a one-job pipeline whose job fails
under the `stop` policy still closes the engine connection exactly once. -/
theorem C9_witness :
    ∃ r, orchestratorRun true true true "stop" (fun _ => false) ["s"]
        [{ name := "a", stage := "s", depends_on := [], runnerType := "reader" }] = .ok r ∧
      r.closes = [.engineClose] ∧ r.err.isSome = true := by
  refine ⟨_, rfl, ?_, by decide⟩
  exact C9_close_exactly_once true true "stop" (fun _ => false) ["s"]
    [{ name := "a", stage := "s", depends_on := [], runnerType := "reader" }] _ rfl

/-- **C10.** At the cleanup block, a non-`None` connection handle implies a
non-`None` engine (the handle is assigned only after the engine was
obtained), so the `finally:` block never takes the legacy fallback branch
(whose `close_quietly` is an undefined name in the repository). -/
theorem C10_legacy_close_unreachable (warehouseCfg getEngineOk connectOk : Bool)
    (eng con : Bool)
    (h : setupDatabase warehouseCfg getEngineOk connectOk = .ok (eng, con)) :
    (con = true → eng = true) ∧ CloseAction.legacyClose ∉ cleanupActions eng con := by
  have hec : (eng, con) = (true, true) ∨ (eng, con) = (false, false) := by
    cases warehouseCfg <;> cases getEngineOk <;> cases connectOk <;>
      simp_all [setupDatabase]
  rcases hec with hec | hec <;> cases hec <;> simp [cleanupActions]

/-- Witness for C10 at a concrete input: the successful setup path yields
engine and connection together, and its cleanup is the engine close. -/
theorem C10_witness :
    setupDatabase true true true = .ok (true, true) ∧
      (CloseAction.legacyClose ∉ cleanupActions true true) := by
  exact ⟨rfl, (C10_legacy_close_unreachable true true true true true rfl).2⟩

/-! ## Theorems: two-job same-stage cycle (C5) -/

/-- Job `A` of the cyclic two-job stage: depends on `B`. -/
def cycA : Job := { name := "A", stage := "s", depends_on := ["B"], runnerType := "reader" }

/-- Job `B` of the cyclic two-job stage: depends on `A`. -/
def cycB : Job := { name := "B", stage := "s", depends_on := ["A"], runnerType := "reader" }

/-- **C5.** For a stage holding two jobs that depend on each other, the
same-stage topological sort raises the cycle `ValueError`, while the main
readiness loop never raises: `get_ready_jobs` is empty for every
completed-set containing neither job (hence on every call of the run), the
stage's inner loop exits on its first iteration for any fuel, and the run
ends with no error and both jobs still `pending`. -/
theorem C5_two_job_cycle (onError : String) (execOk : String → Bool) :
    topological_sort_within_stage [cycA, cycB] "s" = .error (.cycleInStage "s") ∧
      (∀ fuel, stageLoop onError execOk "s" (fuel + 1) (initState [cycA, cycB]) =
        (initState [cycA, cycB], none)) ∧
      runStages onError execOk ["s"] (initState [cycA, cycB]) =
        (initState [cycA, cycB], none) ∧
      (∀ j ∈ (runStages onError execOk ["s"] (initState [cycA, cycB])).1.jobs,
        j.status = .pending) ∧
      (∀ completed : List String, "A" ∉ completed → "B" ∉ completed →
        get_ready_jobs [cycA, cycB] "s" completed = []) := by
  refine ⟨rfl, fun fuel => rfl, rfl, ?_, ?_⟩
  · intro j hj
    have hrun : (runStages onError execOk ["s"] (initState [cycA, cycB])).1.jobs =
        [cycA, cycB] := rfl
    rw [hrun] at hj
    rcases List.mem_cons.mp hj with rfl | hj
    · rfl
    · rcases List.mem_cons.mp hj with rfl | hj
      · rfl
      · cases hj
  · intro completed hA hB
    simp only [get_ready_jobs, cycA, cycB]
    simp [List.filter, hA, hB]

/-- Witness for C5 at a concrete input: the `stop` policy and an
all-success oracle. -/
theorem C5_witness :
    runStages "stop" (fun _ => true) ["s"] (initState [cycA, cycB]) =
        (initState [cycA, cycB], none) ∧
      get_ready_jobs [cycA, cycB] "s" [] = [] := by
  refine ⟨(C5_two_job_cycle "stop" (fun _ => true)).2.2.1, ?_⟩
  exact (C5_two_job_cycle "stop" (fun _ => true)).2.2.2.2 [] (by simp) (by simp)

/-! ## Theorems: variable expansion (C1, C6)

The spec's reading of `_expand` — "substitutes every occurrence of
`${NAME}` and `{NAME}`" — is formalised through *templates*: a string
decomposed into literal chunks and placeholders.  `applySegs` is the
declarative substitution the spec describes (each placeholder replaced by
the environment's value, the empty string when the name is unknown);
the theorems below compare `_expand`'s scanning passes against it. -/

/-- A template segment: a literal chunk, a `${n}` placeholder, or a `{n}`
placeholder. -/
inductive Seg : Type where
  | lit (cs : List Char)
  | dollar (n : List Char)
  | brace (n : List Char)

/-- The concrete text of a segment. -/
def Seg.render : Seg → List Char
  | .lit cs => cs
  | .dollar n => '$' :: '{' :: (n ++ ['}'])
  | .brace n => '{' :: (n ++ ['}'])

/-- The concrete text of a template. -/
def renderSegs : List Seg → List Char
  | [] => []
  | s :: t => s.render ++ renderSegs t

/-- The declarative substitution: literals kept, every placeholder replaced
by `str(env.get(NAME, ""))`. -/
def applySegs (env : Env) : List Seg → List Char
  | [] => []
  | .lit cs :: t => cs ++ applySegs env t
  | .dollar n :: t => envVal env n ++ applySegs env t
  | .brace n :: t => envVal env n ++ applySegs env t

/-- Well-formedness of one segment: literal chunks carry no placeholder
syntax (`$`, `{`, `}`), `${n}` names are non-empty and close-brace-free
(the `[^}]+` group), `{n}` names are non-empty words (`[A-Za-z0-9_]+`). -/
def segOK : Seg → Bool
  | .lit cs => cs.all (fun c => c != '$' && c != '{' && c != '}')
  | .dollar n => !n.isEmpty && n.all (fun c => c != '}')
  | .brace n => !n.isEmpty && n.all isWordChar

/-- Well-formedness of a template. -/
def segsOK (segs : List Seg) : Bool := segs.all segOK

/-- Environment values free of opening braces (cannot seed new `{NAME}`
matches for the second pass). -/
def envNoBrace (env : Env) : Bool :=
  env.all fun kv => kv.2.data.all (fun c => c != '{')

/-- Environment values free of placeholder syntax entirely. -/
def envNoPH (env : Env) : Bool :=
  env.all fun kv => kv.2.data.all (fun c => c != '$' && c != '{')

theorem wordChar_ne {c : Char} (h : isWordChar c = true) :
    c ≠ '$' ∧ c ≠ '{' ∧ c ≠ '}' := by
  refine ⟨?_, ?_, ?_⟩ <;> rintro rfl <;> simp [isWordChar] at h

theorem envGet_chars {P : Char → Prop} (env : Env)
    (h : ∀ kv ∈ env, ∀ c ∈ kv.2.data, P c) {k : String} {v : String}
    (hg : envGet env k = some v) : ∀ c ∈ v.data, P c := by
  induction env with
  | nil => cases hg
  | cons kv t ih =>
    by_cases hk : kv.1 = k
    · rw [envGet, if_pos hk] at hg
      cases hg
      exact h kv (by simp)
    · rw [envGet, if_neg hk] at hg
      exact ih (fun kv' hkv' => h kv' (by simp [hkv'])) hg

theorem envVal_chars {P : Char → Prop} (env : Env)
    (h : ∀ kv ∈ env, ∀ c ∈ kv.2.data, P c) (n : List Char) :
    ∀ c ∈ envVal env n, P c := by
  unfold envVal
  cases hg : envGet env (String.mk n) with
  | none => simp
  | some v => simpa using envGet_chars env h hg

/-! ### Reduction lemmas for the two scanning passes -/

theorem dollarSub_nil (env : Env) : dollarSub env [] = [] := by
  rw [dollarSub.eq_def]

theorem bracesSub_nil (env : Env) : bracesSub env [] = [] := by
  rw [bracesSub.eq_def]

theorem dollarSub_cons_ne (env : Env) {c : Char} (h : c ≠ '$') (cs : List Char) :
    dollarSub env (c :: cs) = c :: dollarSub env cs := by
  rw [dollarSub.eq_def]
  split <;> simp_all

theorem bracesSub_cons_ne (env : Env) {c : Char} (h : c ≠ '{') (cs : List Char) :
    bracesSub env (c :: cs) = c :: bracesSub env cs := by
  rw [bracesSub.eq_def]
  split <;> simp_all

theorem findClose_append (name r : List Char) (h : ∀ c ∈ name, c ≠ '}') :
    findClose (name ++ '}' :: r) = some (name, r) := by
  induction name with
  | nil => simp [findClose]
  | cons c t ih =>
    have hc : c ≠ '}' := h c (by simp)
    simp [findClose, hc, ih (fun x hx => h x (by simp [hx]))]

theorem dollarSub_placeholder (env : Env) (name r : List Char) (hne : name ≠ [])
    (h : ∀ c ∈ name, c ≠ '}') :
    dollarSub env ('$' :: '{' :: (name ++ '}' :: r)) =
      envVal env name ++ dollarSub env r := by
  have hfc := findClose_append name r h
  have hie : name.isEmpty = false := by
    cases name with
    | nil => exact absurd rfl hne
    | cons a t => rfl
  rw [dollarSub.eq_def]
  split
  · rename_i heq
    cases heq
  · rename_i rest2 heq
    obtain rfl : name ++ '}' :: r = rest2 := by simpa using heq
    split
    · rename_i name1 rest1 heq2
      obtain ⟨rfl, rfl⟩ : name = name1 ∧ r = rest1 := by
        simpa using hfc.symm.trans heq2
      rw [if_neg (by simp [hie])]
    · rename_i heq2
      rw [hfc] at heq2
      cases heq2
  · rename_i l2 c2 cs2 hno heq
    injection heq with h1 h2
    exact (hno (name ++ '}' :: r) h1.symm h2.symm).elim

theorem takeWhile_word_append (n r : List Char) (hw : ∀ c ∈ n, isWordChar c = true) :
    (n ++ '}' :: r).takeWhile isWordChar = n ∧
      (n ++ '}' :: r).dropWhile isWordChar = '}' :: r := by
  have hcb : isWordChar '}' = false := by decide
  induction n with
  | nil => simp [List.takeWhile_cons, List.dropWhile_cons, hcb]
  | cons c t ih =>
    have hc : isWordChar c = true := hw c (by simp)
    have := ih (fun x hx => hw x (by simp [hx]))
    simp [List.takeWhile_cons, List.dropWhile_cons, hc, this.1, this.2]

theorem bracesSub_placeholder (env : Env) (name r : List Char) (hne : name ≠ [])
    (hw : ∀ c ∈ name, isWordChar c = true) :
    bracesSub env ('{' :: (name ++ '}' :: r)) =
      envVal env name ++ bracesSub env r := by
  have htw := takeWhile_word_append name r hw
  have hie : name.isEmpty = false := by
    cases name with
    | nil => exact absurd rfl hne
    | cons a t => rfl
  rw [bracesSub.eq_def]
  split
  · rename_i heq
    cases heq
  · rename_i cs2 heq
    obtain rfl : name ++ '}' :: r = cs2 := by simpa using heq
    split
    · rename_i rest1 heq2
      obtain rfl : r = rest1 := by
        simpa using htw.2.symm.trans heq2
      rw [if_neg (by simp [htw.1, hie]), htw.1]
    · simp_all
  · rename_i l2 c2 cs2 hno heq
    injection heq with h1 h2
    exact (hno h1.symm).elim

theorem dollarSub_append_no_dollar (env : Env) (l r : List Char)
    (h : ∀ c ∈ l, c ≠ '$') :
    dollarSub env (l ++ r) = l ++ dollarSub env r := by
  induction l with
  | nil => simp
  | cons c t ih =>
    have hc : c ≠ '$' := h c (by simp)
    simp only [List.cons_append]
    rw [dollarSub_cons_ne env hc, ih (fun x hx => h x (by simp [hx]))]

theorem bracesSub_append_no_brace (env : Env) (l r : List Char)
    (h : ∀ c ∈ l, c ≠ '{') :
    bracesSub env (l ++ r) = l ++ bracesSub env r := by
  induction l with
  | nil => simp
  | cons c t ih =>
    have hc : c ≠ '{' := h c (by simp)
    simp only [List.cons_append]
    rw [bracesSub_cons_ne env hc, ih (fun x hx => h x (by simp [hx]))]

theorem dollarSub_fix (env : Env) (l : List Char) (h : ∀ c ∈ l, c ≠ '$') :
    dollarSub env l = l := by
  have := dollarSub_append_no_dollar env l [] h
  simpa [dollarSub_nil] using this

theorem bracesSub_fix (env : Env) (l : List Char) (h : ∀ c ∈ l, c ≠ '{') :
    bracesSub env l = l := by
  have := bracesSub_append_no_brace env l [] h
  simpa [bracesSub_nil] using this

/-! ### The two passes on a well-formed template -/

/-- The text after the `_DOLLAR` pass: `${n}` placeholders replaced, the
rest intact. -/
def afterDollar (env : Env) : List Seg → List Char
  | [] => []
  | .lit cs :: t => cs ++ afterDollar env t
  | .dollar n :: t => envVal env n ++ afterDollar env t
  | .brace n :: t => ('{' :: (n ++ ['}'])) ++ afterDollar env t

theorem litOK_chars {cs : List Char} (h : segOK (.lit cs) = true) :
    ∀ c ∈ cs, c ≠ '$' ∧ c ≠ '{' ∧ c ≠ '}' := by
  intro c hc
  have := (List.all_eq_true.mp h) c hc
  simp only [Bool.and_eq_true, bne_iff_ne] at this
  exact ⟨this.1.1, this.1.2, this.2⟩

theorem dollarSub_renderSegs (env : Env) (segs : List Seg) (hs : segsOK segs = true) :
    dollarSub env (renderSegs segs) = afterDollar env segs := by
  induction segs with
  | nil => simp [renderSegs, afterDollar, dollarSub_nil]
  | cons s t ih =>
    have hst : segsOK t = true := by
      simp only [segsOK, List.all_cons, Bool.and_eq_true] at hs
      exact hs.2
    have hsh : segOK s = true := by
      simp only [segsOK, List.all_cons, Bool.and_eq_true] at hs
      exact hs.1
    cases s with
    | lit cs =>
      simp only [renderSegs, Seg.render, afterDollar]
      rw [dollarSub_append_no_dollar env cs _ (fun c hc => (litOK_chars hsh c hc).1),
        ih hst]
    | dollar n =>
      simp only [segOK, Bool.and_eq_true, Bool.not_eq_eq_eq_not, Bool.not_true,
        List.isEmpty_eq_false_iff_exists_mem, List.all_eq_true, bne_iff_ne] at hsh
      have hne : n ≠ [] := by
        rcases hsh.1 with ⟨x, hx⟩
        intro h; subst h; cases hx
      simp only [renderSegs, Seg.render, afterDollar, List.cons_append,
        List.append_assoc, List.singleton_append]
      rw [dollarSub_placeholder env n _ hne hsh.2]
      simp only [List.nil_append]
      rw [ih hst]
    | brace n =>
      simp only [segOK, Bool.and_eq_true, List.all_eq_true] at hsh
      have hnd : ∀ c ∈ ('{' :: (n ++ ['}'])), c ≠ '$' := by
        intro c hc
        rcases List.mem_cons.mp hc with rfl | hc
        · decide
        · rcases List.mem_append.mp hc with hc | hc
          · exact (wordChar_ne (hsh.2 c hc)).1
          · rcases List.mem_singleton.mp hc with rfl; decide
      simp only [renderSegs, Seg.render, afterDollar]
      rw [dollarSub_append_no_dollar env _ _ hnd, ih hst]

theorem envNoBrace_chars {env : Env} (he : envNoBrace env = true) :
    ∀ kv ∈ env, ∀ c ∈ kv.2.data, c ≠ '{' := by
  intro kv hkv c hc
  have := (List.all_eq_true.mp ((List.all_eq_true.mp he) kv hkv)) c hc
  simpa [bne_iff_ne] using this

theorem bracesSub_afterDollar (env : Env) (segs : List Seg) (hs : segsOK segs = true)
    (he : envNoBrace env = true) :
    bracesSub env (afterDollar env segs) = applySegs env segs := by
  induction segs with
  | nil => simp [afterDollar, applySegs, bracesSub_nil]
  | cons s t ih =>
    have hst : segsOK t = true := by
      simp only [segsOK, List.all_cons, Bool.and_eq_true] at hs
      exact hs.2
    have hsh : segOK s = true := by
      simp only [segsOK, List.all_cons, Bool.and_eq_true] at hs
      exact hs.1
    cases s with
    | lit cs =>
      simp only [afterDollar, applySegs]
      rw [bracesSub_append_no_brace env cs _ (fun c hc => (litOK_chars hsh c hc).2.1),
        ih hst]
    | dollar n =>
      simp only [afterDollar, applySegs]
      rw [bracesSub_append_no_brace env _ _
          (envVal_chars env (envNoBrace_chars he) n), ih hst]
    | brace n =>
      simp only [segOK, Bool.and_eq_true, Bool.not_eq_eq_eq_not, Bool.not_true,
        List.isEmpty_eq_false_iff_exists_mem, List.all_eq_true] at hsh
      have hne : n ≠ [] := by
        rcases hsh.1 with ⟨x, hx⟩
        intro h; subst h; cases hx
      simp only [afterDollar, applySegs, List.cons_append, List.append_assoc,
        List.singleton_append]
      rw [bracesSub_placeholder env n _ hne hsh.2]
      simp only [List.nil_append]
      rw [ih hst]

theorem expandStr_template (env : Env) (segs : List Seg) (hs : segsOK segs = true)
    (he : envNoBrace env = true) :
    expandStr env (String.mk (renderSegs segs)) = String.mk (applySegs env segs) := by
  unfold expandStr
  rw [show (String.mk (renderSegs segs)).data = renderSegs segs from rfl,
    dollarSub_renderSegs env segs hs, bracesSub_afterDollar env segs hs he]

/-- **C1 (as stated) is false**: with an empty environment, `_expand` does
not leave the unknown placeholder `${FOO}` unchanged — the `_DOLLAR`
substitution replaces it by `str(env.get("FOO", ""))`, the empty string. -/
theorem C1_counterexample :
    _expand [] (ConfigVal.str "${FOO}") = ConfigVal.str "" ∧
      ("" : String) ≠ "${FOO}" := by
  refine ⟨?_, by decide⟩
  have h1 : _expand [] (ConfigVal.str "${FOO}") = .str (expandStr [] "${FOO}") := by
    simp [_expand]
  have hd : "${FOO}".data = '$' :: '{' :: ("FOO".data ++ '}' :: []) := by decide
  have h2 : expandStr [] "${FOO}" = "" := by
    unfold expandStr
    rw [hd, dollarSub_placeholder [] "FOO".data [] (by decide) (by decide)]
    simp [envVal, envGet, dollarSub_nil, bracesSub_nil]
  rw [h1, h2]

/-- **C1 (amended).** On every well-formed template (literal text free of
placeholder syntax, well-formed placeholder names) and every environment
whose values contain no opening brace, `_expand` substitutes every
`${NAME}` and `{NAME}` occurrence in a string scalar with the
environment's value of `NAME` when `NAME` is a key, and with the **empty
string** — not the unchanged placeholder text — when it is not (no error
in either case); literal text is left unchanged. -/
theorem C1_amended_substitution (env : Env) (segs : List Seg)
    (hs : segsOK segs = true) (he : envNoBrace env = true) :
    _expand env (.str (String.mk (renderSegs segs))) =
      .str (String.mk (applySegs env segs)) := by
  show ConfigVal.str (expandStr env (String.mk (renderSegs segs))) = _
  rw [expandStr_template env segs hs he]

/-- Witness for the amended C1 at a concrete input: `"a ${NAME}-{X} z"`
with `NAME ↦ "v"` and `X` unknown resolves to `"a v- z"`. -/
theorem C1_witness :
    segsOK [Seg.lit "a ".data, Seg.dollar "NAME".data, Seg.lit "-".data,
        Seg.brace "X".data, Seg.lit " z".data] = true ∧
      envNoBrace [("NAME", "v")] = true ∧
      _expand [("NAME", "v")] (.str "a ${NAME}-{X} z") = .str "a v- z" := by
  refine ⟨by decide, by decide, ?_⟩
  have h := C1_amended_substitution [("NAME", "v")]
    [Seg.lit "a ".data, Seg.dollar "NAME".data, Seg.lit "-".data,
      Seg.brace "X".data, Seg.lit " z".data] (by decide) (by decide)
  have e1 : String.mk (renderSegs [Seg.lit "a ".data, Seg.dollar "NAME".data,
      Seg.lit "-".data, Seg.brace "X".data, Seg.lit " z".data]) = "a ${NAME}-{X} z" := by
    decide
  have e2 : String.mk (applySegs [("NAME", "v")] [Seg.lit "a ".data,
      Seg.dollar "NAME".data, Seg.lit "-".data, Seg.brace "X".data,
      Seg.lit " z".data]) = "a v- z" := by
    decide
  rw [e1, e2] at h
  exact h

/-! ### Idempotence of expansion (C6) -/

theorem envNoPH_chars {env : Env} (he : envNoPH env = true) :
    ∀ kv ∈ env, ∀ c ∈ kv.2.data, c ≠ '$' ∧ c ≠ '{' := by
  intro kv hkv c hc
  have := (List.all_eq_true.mp ((List.all_eq_true.mp he) kv hkv)) c hc
  simp only [Bool.and_eq_true, bne_iff_ne] at this
  exact this

theorem envNoPH_noBrace (env : Env) (he : envNoPH env = true) :
    envNoBrace env = true := by
  rw [envNoBrace, List.all_eq_true]
  intro kv hkv
  rw [List.all_eq_true]
  intro c hc
  simpa using (envNoPH_chars he kv hkv c hc).2

theorem applySegs_chars (env : Env) (segs : List Seg) (hs : segsOK segs = true)
    (he : envNoPH env = true) :
    ∀ c ∈ applySegs env segs, c ≠ '$' ∧ c ≠ '{' := by
  induction segs with
  | nil => simp [applySegs]
  | cons s t ih =>
    have hst : segsOK t = true := by
      simp only [segsOK, List.all_cons, Bool.and_eq_true] at hs
      exact hs.2
    have hsh : segOK s = true := by
      simp only [segsOK, List.all_cons, Bool.and_eq_true] at hs
      exact hs.1
    cases s with
    | lit cs =>
      intro c hc
      rcases List.mem_append.mp hc with hc | hc
      · exact ⟨(litOK_chars hsh c hc).1, (litOK_chars hsh c hc).2.1⟩
      · exact ih hst c hc
    | dollar n =>
      intro c hc
      rcases List.mem_append.mp hc with hc | hc
      · exact envVal_chars env (envNoPH_chars he) n c hc
      · exact ih hst c hc
    | brace n =>
      intro c hc
      rcases List.mem_append.mp hc with hc | hc
      · exact envVal_chars env (envNoPH_chars he) n c hc
      · exact ih hst c hc

theorem expandStr_fix (env : Env) (s : String)
    (h : ∀ c ∈ s.data, c ≠ '$' ∧ c ≠ '{') : expandStr env s = s := by
  unfold expandStr
  rw [dollarSub_fix env s.data (fun c hc => (h c hc).1),
    bracesSub_fix env s.data (fun c hc => (h c hc).2)]

mutual
/-- Every string scalar of the configuration tree is a well-formed
template (its text decomposes into placeholder-syntax-free literal chunks
and well-formed placeholders). -/
def Templated : ConfigVal → Prop
  | .str s => ∃ segs, segsOK segs = true ∧ s.data = renderSegs segs
  | .arr vs => TemplatedL vs
  | .dict kvs => TemplatedD kvs
  | .nullv => True
  | .intv _ => True
  | .boolv _ => True
/-- `Templated` over sequences. -/
def TemplatedL : ConfigList → Prop
  | .nil => True
  | .cons v t => Templated v ∧ TemplatedL t
/-- `Templated` over mappings. -/
def TemplatedD : ConfigDict → Prop
  | .nil => True
  | .cons _ v t => Templated v ∧ TemplatedD t
end

mutual
theorem _expand_idem_val (env : Env) (he : envNoPH env = true) :
    ∀ (c : ConfigVal), Templated c → _expand env (_expand env c) = _expand env c
  | .nullv, _ => by simp [_expand]
  | .intv n, _ => by simp [_expand]
  | .boolv b, _ => by simp [_expand]
  | .str s, h => by
    simp only [Templated] at h
    obtain ⟨segs, hs, hd⟩ := h
    have hb := envNoPH_noBrace env he
    have hsmk : s = String.mk (renderSegs segs) := by
      cases s with
      | mk d =>
        simp only at hd
        rw [hd]
    have h1 : expandStr env s = String.mk (applySegs env segs) := by
      rw [hsmk, expandStr_template env segs hs hb]
    simp only [_expand]
    rw [h1, expandStr_fix env (String.mk (applySegs env segs))
      (applySegs_chars env segs hs he)]
  | .arr vs, h => by
    simp only [Templated] at h
    simp only [_expand]
    rw [_expand_idem_list env he vs h]
  | .dict kvs, h => by
    simp only [Templated] at h
    simp only [_expand]
    rw [_expand_idem_dict env he kvs h]

theorem _expand_idem_list (env : Env) (he : envNoPH env = true) :
    ∀ (l : ConfigList), TemplatedL l →
      _expandList env (_expandList env l) = _expandList env l
  | .nil, _ => by simp [_expandList]
  | .cons v t, h => by
    simp only [TemplatedL] at h
    simp only [_expandList]
    rw [_expand_idem_val env he v h.1, _expand_idem_list env he t h.2]

theorem _expand_idem_dict (env : Env) (he : envNoPH env = true) :
    ∀ (d : ConfigDict), TemplatedD d →
      _expandDict env (_expandDict env d) = _expandDict env d
  | .nil, _ => by simp [_expandDict]
  | .cons k v t, h => by
    simp only [TemplatedD] at h
    simp only [_expandDict]
    rw [_expand_idem_val env he v h.1, _expand_idem_dict env he t h.2]
end

/-- Failed `{...}` match attempt: when the characters after the opening
brace do not form `word-run + '}'`, scanning resumes one character
later. -/
theorem bracesSub_open_fail (env : Env) (cs : List Char)
    (h : (cs.dropWhile isWordChar).head? ≠ some '}' ∨
      (cs.takeWhile isWordChar).isEmpty = true) :
    bracesSub env ('{' :: cs) = '{' :: bracesSub env cs := by
  rw [bracesSub.eq_def]
  split
  · rename_i heq
    cases heq
  · rename_i cs2 heq
    obtain rfl : cs = cs2 := by simpa using heq
    split
    · rename_i rest1 heq2
      rcases h with h | h
      · rw [heq2] at h
        simp at h
      · rw [if_pos h]
    · rfl
  · rename_i l2 c2 cs2 hno heq
    injection heq with h1 h2
    exact (hno h1.symm).elim

/-- **C6 (as stated) is false**: expansion is not idempotent for every
configuration and environment.  With `B ↦ "x"`, the scalar `"{{B}}"`
expands once to `"{x}"` (the inner `{B}` matches), and expanding the
result again yields `""` (the fresh `{x}` now matches, `x` is unknown). -/
theorem C6_counterexample :
    _expand [("B", "x")] (ConfigVal.str "{{B}}") = ConfigVal.str "{x}" ∧
      _expand [("B", "x")]
          (_expand [("B", "x")] (ConfigVal.str "{{B}}")) = ConfigVal.str "" ∧
      ("{x}" : String) ≠ "" := by
  have henv : Env := [("B", "x")]
  have h1 : expandStr [("B", "x")] "{{B}}" = "{x}" := by
    unfold expandStr
    have hdol : dollarSub [("B", "x")] "{{B}}".data = "{{B}}".data :=
      dollarSub_fix _ _ (by decide)
    rw [hdol]
    have hd : "{{B}}".data = '{' :: '{' :: ("B".data ++ '}' :: ['}']) := by decide
    rw [hd, bracesSub_open_fail _ _ (by decide),
      bracesSub_placeholder _ "B".data ['}'] (by decide) (by decide)]
    have : bracesSub [("B", "x")] ['}'] = ['}'] := bracesSub_fix _ _ (by decide)
    rw [this]
    decide
  have h2 : expandStr [("B", "x")] "{x}" = "" := by
    unfold expandStr
    have hdol : dollarSub [("B", "x")] "{x}".data = "{x}".data :=
      dollarSub_fix _ _ (by decide)
    rw [hdol]
    have hd : "{x}".data = '{' :: ("x".data ++ '}' :: []) := by decide
    rw [hd, bracesSub_placeholder _ "x".data [] (by decide) (by decide),
      bracesSub_nil]
    decide
  refine ⟨?_, ?_, by decide⟩
  · show ConfigVal.str (expandStr [("B", "x")] "{{B}}") = _
    rw [h1]
  · show ConfigVal.str (expandStr [("B", "x")] (expandStr [("B", "x")] "{{B}}")) = _
    rw [h1, h2]

/-- **C6 (amended).** Expansion is idempotent on the domain the pipeline
configurations live in: for every configuration tree whose string scalars
are well-formed templates and every environment whose values are free of
placeholder syntax, `_expand(_expand(config, env), env) =
_expand(config, env)`.  (The model is pure, so expansion trivially has no
side effect on the environment; the general statement over *all*
configurations is refuted by `C6_counterexample`.) -/
theorem C6_amended_idempotent (env : Env) (he : envNoPH env = true)
    (c : ConfigVal) (hc : Templated c) :
    _expand env (_expand env c) = _expand env c :=
  _expand_idem_val env he c hc

/-- Witness for the amended C6 at a concrete input. -/
theorem C6_witness :
    envNoPH [("B", "x")] = true ∧
      _expand [("B", "x")] (_expand [("B", "x")] (ConfigVal.str "a {B} c")) =
        _expand [("B", "x")] (ConfigVal.str "a {B} c") := by
  refine ⟨by decide, ?_⟩
  refine C6_amended_idempotent [("B", "x")] (by decide) (.str "a {B} c") ?_
  simp only [Templated]
  exact ⟨[Seg.lit "a ".data, Seg.brace "B".data, Seg.lit " c".data],
    by decide, by decide⟩

/-! ## Run-trace metrics and the driver invariant (C8, C3)

Per-job projections of an event trace: the sequence of values written to
the job's `status` field, the number of `execute_*_job` entries, and the
number of `completed_jobs.add` calls for the name. -/

/-- The statuses assigned to job `n`, in trace order. -/
def assignsFor (n : String) : List Event → List Status
  | [] => []
  | .assign m s :: t => if m = n then s :: assignsFor n t else assignsFor n t
  | _ :: t => assignsFor n t

/-- How many times job `n` entered an executor. -/
def execsFor (n : String) : List Event → Nat
  | [] => 0
  | .exec m _ :: t => (if m = n then 1 else 0) + execsFor n t
  | _ :: t => execsFor n t

/-- How many times `n` was added to the completed-set. -/
def addsFor (n : String) : List Event → Nat
  | [] => 0
  | .addCompleted m :: t => (if m = n then 1 else 0) + addsFor n t
  | _ :: t => addsFor n t

/-- The job's status after a sequence of writes (`pending` before any). -/
def endStatus (l : List Status) : Status := l.getLastD .pending

/-- Collapse consecutive equal statuses: the value-change chain of the
status field. -/
def dedupConsec : List Status → List Status
  | [] => []
  | [s] => [s]
  | s :: s' :: t => if s = s' then dedupConsec (s' :: t) else s :: dedupConsec (s' :: t)

/-- The sequence of distinct values job `n`'s status field takes during
the trace, starting from `pending`. -/
def statusPath (n : String) (tr : List Event) : List Status :=
  dedupConsec (Status.pending :: assignsFor n tr)

/-- The names of executed jobs, in execution order. -/
def execNames (tr : List Event) : List String :=
  tr.filterMap fun e =>
    match e with
    | .exec m _ => some m
    | _ => none

/-- The admissible per-job trace profiles of one driver run, tied to the
policy and to whether the job's executor body raises:
never touched; dispatch-`ValueError` swallowed by `continue`; executed and
returned; executed and raised under a non-`continue` policy (the run
aborts right after); executed and raised under `continue` (the driver's
`except` branch assigns `failed` a second time and completes the job). -/
def historyOK (onError : String) (execOk : String → Bool) (n : String)
    (tr : List Event) : Prop :=
  (assignsFor n tr = [] ∧ execsFor n tr = 0 ∧ addsFor n tr = 0) ∨
  (assignsFor n tr = [.failed] ∧ execsFor n tr = 0 ∧ addsFor n tr = 1 ∧
    onError = "continue") ∨
  (assignsFor n tr = [.running, .success] ∧ execsFor n tr = 1 ∧ addsFor n tr = 1 ∧
    execOk n = true) ∨
  (assignsFor n tr = [.running, .failed] ∧ execsFor n tr = 1 ∧ addsFor n tr = 0 ∧
    execOk n = false ∧ onError ≠ "continue") ∨
  (assignsFor n tr = [.running, .failed, .failed] ∧ execsFor n tr = 1 ∧
    addsFor n tr = 1 ∧ execOk n = false ∧ onError = "continue")

/-- The status of the (uniquely named) job `n`. -/
def statusOf (jobs : List Job) (n : String) : Option Status :=
  (jobs.find? (fun j => j.name == n)).map Job.status

/-- The immutable part of a `Job`. -/
def jobCore (j : Job) : String × String × List String × String :=
  (j.name, j.stage, j.depends_on, j.runnerType)

/-- The driver invariant, holding at every loop boundary of one run: job
names are unique; every job's status field agrees with the replay of its
trace; every per-job profile is admissible; and the completed-set holds
exactly the names with an `add` in the trace. -/
structure GoodState (onError : String) (execOk : String → Bool) (st : RunState) : Prop where
  nodup : (jobNames st.jobs).Nodup
  status_trace : ∀ j ∈ st.jobs, j.status = endStatus (assignsFor j.name st.trace)
  hist : ∀ n, historyOK onError execOk n st.trace
  completed_adds : ∀ n, n ∈ st.completed ↔ 0 < addsFor n st.trace

theorem assignsFor_append (n : String) (tr1 tr2 : List Event) :
    assignsFor n (tr1 ++ tr2) = assignsFor n tr1 ++ assignsFor n tr2 := by
  induction tr1 with
  | nil => simp [assignsFor]
  | cons e t ih =>
    cases e with
    | assign m s =>
      by_cases hm : m = n <;> simp [assignsFor, hm, ih]
    | exec m ty => simp [assignsFor, ih]
    | addCompleted m => simp [assignsFor, ih]

theorem execsFor_append (n : String) (tr1 tr2 : List Event) :
    execsFor n (tr1 ++ tr2) = execsFor n tr1 + execsFor n tr2 := by
  induction tr1 with
  | nil => simp [execsFor]
  | cons e t ih =>
    cases e with
    | assign m s => simp [execsFor, ih]
    | exec m ty => by_cases hm : m = n <;> simp [execsFor, hm, ih] <;> omega
    | addCompleted m => simp [execsFor, ih]

theorem addsFor_append (n : String) (tr1 tr2 : List Event) :
    addsFor n (tr1 ++ tr2) = addsFor n tr1 + addsFor n tr2 := by
  induction tr1 with
  | nil => simp [addsFor]
  | cons e t ih =>
    cases e with
    | assign m s => simp [addsFor, ih]
    | exec m ty => simp [addsFor, ih]
    | addCompleted m => by_cases hm : m = n <;> simp [addsFor, hm, ih] <;> omega

/-! Basic facts about `setJobStatus` and `addCompleted`. -/

theorem setJobStatus_setJobStatus (jobs : List Job) (n : String) (s1 s2 : Status) :
    setJobStatus (setJobStatus jobs n s1) n s2 = setJobStatus jobs n s2 := by
  induction jobs with
  | nil => rfl
  | cons j t ih =>
    by_cases hj : j.name = n <;> simp [setJobStatus, hj] at ih ⊢ <;> exact ih

theorem jobNames_setJobStatus (jobs : List Job) (n : String) (s : Status) :
    jobNames (setJobStatus jobs n s) = jobNames jobs := by
  induction jobs with
  | nil => rfl
  | cons j t ih =>
    by_cases hj : j.name = n <;> simp [setJobStatus, jobNames, hj] at ih ⊢ <;> exact ih

theorem jobCore_setJobStatus (jobs : List Job) (n : String) (s : Status) :
    (setJobStatus jobs n s).map jobCore = jobs.map jobCore := by
  induction jobs with
  | nil => rfl
  | cons j t ih =>
    by_cases hj : j.name = n <;> simp [setJobStatus, jobCore, hj] at ih ⊢ <;> exact ih

theorem mem_setJobStatus {jobs : List Job} {n : String} {s : Status} {j' : Job}
    (h : j' ∈ setJobStatus jobs n s) :
    (j'.name = n ∧ j'.status = s ∧ ∃ j ∈ jobs, j' = { j with status := s }) ∨
      (j'.name ≠ n ∧ j' ∈ jobs) := by
  rw [setJobStatus, List.mem_map] at h
  obtain ⟨j, hj, hj'⟩ := h
  by_cases hn : j.name = n
  · rw [if_pos hn] at hj'
    exact Or.inl ⟨by rw [← hj']; exact hn, by rw [← hj'], j, hj, hj'.symm⟩
  · rw [if_neg hn] at hj'
    exact Or.inr ⟨by rw [← hj']; exact hn, hj' ▸ hj⟩

theorem statusOf_setJobStatus_other (jobs : List Job) {m n : String} (hm : m ≠ n)
    (s : Status) : statusOf (setJobStatus jobs n s) m = statusOf jobs m := by
  induction jobs with
  | nil => rfl
  | cons j t ih =>
    rw [setJobStatus, List.map_cons]
    by_cases hj : j.name = n
    · have hne : j.name ≠ m := by rw [hj]; exact fun h => hm h.symm
      rw [if_pos hj, statusOf, statusOf,
        List.find?_cons_of_neg _ (by simpa using hne),
        List.find?_cons_of_neg _ (by simpa using hne)]
      exact ih
    · by_cases hjm : j.name = m
      · rw [if_neg hj, statusOf, statusOf,
          List.find?_cons_of_pos _ (by simpa using hjm),
          List.find?_cons_of_pos _ (by simpa using hjm)]
      · rw [if_neg hj, statusOf, statusOf,
          List.find?_cons_of_neg _ (by simpa using hjm),
          List.find?_cons_of_neg _ (by simpa using hjm)]
        exact ih

theorem mem_addCompleted (c : List String) (n m : String) :
    m ∈ addCompleted c n ↔ m ∈ c ∨ m = n := by
  rw [addCompleted]
  by_cases hc : c.contains n
  · rw [if_pos hc]
    constructor
    · exact Or.inl
    · rintro (h | rfl)
      · exact h
      · exact List.elem_iff.mp hc
  · rw [if_neg hc]
    simp

theorem subset_addCompleted (c : List String) (n : String) : c ⊆ addCompleted c n := by
  intro m hm
  exact (mem_addCompleted c n m).mpr (Or.inl hm)

theorem handleJobError_not_continue {onError : String} (h : onError ≠ "continue")
    (st : RunState) (n : String) (e : PipeError) :
    handleJobError onError st n e = (st, some e) := by
  rw [handleJobError]
  by_cases hs : onError = "stop"
  · rw [if_pos hs]
  · rw [if_neg hs, if_neg h]

theorem handleJobError_continue (st : RunState) (n : String) (e : PipeError) :
    handleJobError "continue" st n e =
      ({ jobs := setJobStatus st.jobs n .failed,
         completed := addCompleted st.completed n,
         trace := st.trace ++ [.assign n .failed, .addCompleted n] }, none) := by
  rw [handleJobError, if_neg (by decide), if_pos rfl]

/-- The five possible outcomes of the driver's per-job dispatch-execute-
policy block, given that the name resolves to job `j`. -/
theorem processJob_spec (onError : String) (execOk : String → Bool) (st : RunState)
    {n : String} {j : Job}
    (hfind : st.jobs.find? (fun j' => j'.name == n) = some j) :
    (determineJobType j.stage j.runnerType = none ∧ onError ≠ "continue" ∧
      processJob onError execOk st n =
        (st, some (.cannotDetermineType j.stage j.runnerType))) ∨
    (determineJobType j.stage j.runnerType = none ∧ onError = "continue" ∧
      processJob onError execOk st n =
        ({ jobs := setJobStatus st.jobs n .failed,
           completed := addCompleted st.completed n,
           trace := st.trace ++ [.assign n .failed, .addCompleted n] }, none)) ∨
    (∃ t, determineJobType j.stage j.runnerType = some t ∧ execOk n = true ∧
      processJob onError execOk st n =
        ({ jobs := setJobStatus st.jobs n .success,
           completed := addCompleted st.completed n,
           trace := st.trace ++
             [.exec n t, .assign n .running, .assign n .success,
              .addCompleted n] }, none)) ∨
    (∃ t, determineJobType j.stage j.runnerType = some t ∧ execOk n = false ∧
      onError ≠ "continue" ∧
      processJob onError execOk st n =
        ({ jobs := setJobStatus st.jobs n .failed, completed := st.completed,
           trace := st.trace ++
             [.exec n t, .assign n .running, .assign n .failed] },
         some (.jobException n))) ∨
    (∃ t, determineJobType j.stage j.runnerType = some t ∧ execOk n = false ∧
      onError = "continue" ∧
      processJob onError execOk st n =
        ({ jobs := setJobStatus st.jobs n .failed,
           completed := addCompleted st.completed n,
           trace := st.trace ++
             [.exec n t, .assign n .running, .assign n .failed, .assign n .failed,
              .addCompleted n] }, none)) := by
  cases hdt : determineJobType j.stage j.runnerType with
  | none =>
    by_cases hc : onError = "continue"
    · subst hc
      refine Or.inr (Or.inl ⟨rfl, rfl, ?_⟩)
      simp only [processJob, hfind, hdt]
      rw [handleJobError_continue]
    · refine Or.inl ⟨rfl, hc, ?_⟩
      simp only [processJob, hfind, hdt]
      rw [handleJobError_not_continue hc]
  | some t =>
    cases hok : execOk n with
    | true =>
      refine Or.inr (Or.inr (Or.inl ⟨t, rfl, rfl, ?_⟩))
      simp only [processJob, hfind, hdt, execUpdate, hok, if_true, if_false,
        Bool.false_eq_true, setJobStatus_setJobStatus, List.append_assoc,
        List.cons_append, List.nil_append]
    | false =>
      by_cases hc : onError = "continue"
      · subst hc
        refine Or.inr (Or.inr (Or.inr (Or.inr ⟨t, rfl, rfl, rfl, ?_⟩)))
        simp only [processJob, hfind, hdt, execUpdate, hok, if_true, if_false,
          Bool.false_eq_true]
        rw [handleJobError_continue]
        simp only [setJobStatus_setJobStatus, List.append_assoc, List.cons_append,
          List.nil_append]
      · refine Or.inr (Or.inr (Or.inr (Or.inl ⟨t, rfl, rfl, hc, ?_⟩)))
        simp only [processJob, hfind, hdt, execUpdate, hok, if_true, if_false,
          Bool.false_eq_true]
        rw [handleJobError_not_continue hc]
        simp only [setJobStatus_setJobStatus, List.append_assoc, List.cons_append,
          List.nil_append]

/-- A pending job has an untouched trace profile. -/
theorem fresh_of_pending {onError : String} {execOk : String → Bool} {st : RunState}
    {n : String} {j : Job}
    (hfind : st.jobs.find? (fun j' => j'.name == n) = some j)
    (hpend : j.status = .pending)
    (hg : GoodState onError execOk st) :
    assignsFor n st.trace = [] ∧ execsFor n st.trace = 0 ∧
      addsFor n st.trace = 0 := by
  have hmem : j ∈ st.jobs := List.mem_of_find?_eq_some hfind
  have hname : j.name = n := by
    have := List.find?_some hfind
    simpa using this
  have hstat := hg.status_trace j hmem
  rw [hpend, hname] at hstat
  rcases hg.hist n with h | h | h | h | h
  · exact ⟨h.1, h.2.1, h.2.2⟩
  · rw [h.1] at hstat; exact absurd hstat (by decide)
  · rw [h.1] at hstat; exact absurd hstat (by decide)
  · rw [h.1] at hstat; exact absurd hstat (by decide)
  · rw [h.1] at hstat; exact absurd hstat (by decide)

theorem historyOK_extend_other {onError : String} {execOk : String → Bool} {m : String}
    {tr seg : List Event} (h : historyOK onError execOk m tr)
    (hz : assignsFor m seg = [] ∧ execsFor m seg = 0 ∧ addsFor m seg = 0) :
    historyOK onError execOk m (tr ++ seg) := by
  have ha : assignsFor m (tr ++ seg) = assignsFor m tr := by
    rw [assignsFor_append, hz.1, List.append_nil]
  have he : execsFor m (tr ++ seg) = execsFor m tr := by
    rw [execsFor_append, hz.2.1, Nat.add_zero]
  have hd : addsFor m (tr ++ seg) = addsFor m tr := by
    rw [addsFor_append, hz.2.2, Nat.add_zero]
  unfold historyOK at h ⊢
  rw [ha, he, hd]
  exact h

/-- Extending a good state by one job's event segment. -/
theorem goodState_step (onError : String) (execOk : String → Bool) {st : RunState}
    {n : String} (seg : List Event) (s_end : Status) (added : Bool)
    (hg : GoodState onError execOk st)
    (hend : endStatus (assignsFor n (st.trace ++ seg)) = s_end)
    (hother : ∀ m, m ≠ n →
      assignsFor m seg = [] ∧ execsFor m seg = 0 ∧ addsFor m seg = 0)
    (hhistn : historyOK onError execOk n (st.trace ++ seg))
    (haddn : 0 < addsFor n (st.trace ++ seg) ↔ (added = true ∨ n ∈ st.completed)) :
    GoodState onError execOk
      { jobs := setJobStatus st.jobs n s_end,
        completed := if added then addCompleted st.completed n else st.completed,
        trace := st.trace ++ seg } := by
  refine ⟨?_, ?_, ?_, ?_⟩
  · show (jobNames (setJobStatus st.jobs n s_end)).Nodup
    rw [jobNames_setJobStatus]
    exact hg.nodup
  · intro j' hj'
    rcases mem_setJobStatus hj' with ⟨hn', hs', j0, hj0, hj'eq⟩ | ⟨hn', hj'mem⟩
    · rw [hn', hs']
      exact hend.symm
    · have hprev := hg.status_trace j' hj'mem
      show j'.status = endStatus (assignsFor j'.name (st.trace ++ seg))
      rw [assignsFor_append, (hother j'.name hn').1, List.append_nil]
      exact hprev
  · intro m
    by_cases hm : m = n
    · subst hm; exact hhistn
    · exact historyOK_extend_other (hg.hist m) (hother m hm)
  · intro m
    by_cases hm : m = n
    · subst hm
      show m ∈ (if added then addCompleted st.completed m else st.completed) ↔ _
      cases added with
      | true =>
        rw [if_pos rfl]
        simp only [mem_addCompleted, or_true, true_iff]
        rw [haddn]
        exact Or.inl rfl
      | false =>
        rw [if_neg (by simp)]
        rw [haddn]
        simp
    · have hprev := hg.completed_adds m
      have hz := (hother m hm).2.2
      show m ∈ (if added then addCompleted st.completed n else st.completed) ↔ _
      rw [addsFor_append, hz, Nat.add_zero]
      cases added with
      | true =>
        rw [if_pos rfl, mem_addCompleted]
        constructor
        · rintro (h | rfl)
          · exact hprev.mp h
          · exact absurd rfl hm
        · intro h
          exact Or.inl (hprev.mpr h)
      | false =>
        rw [if_neg (by simp)]
        exact hprev

/-- Processing one ready (pending) job preserves the driver invariant,
leaves every other job's status and the job cores unchanged, and only
grows the completed-set. -/
theorem processJob_preserves (onError : String) (execOk : String → Bool) {st : RunState}
    {n : String} {j : Job}
    (hfind : st.jobs.find? (fun j' => j'.name == n) = some j)
    (hpend : j.status = .pending)
    (hg : GoodState onError execOk st) :
    GoodState onError execOk (processJob onError execOk st n).1 ∧
      (processJob onError execOk st n).1.jobs.map jobCore = st.jobs.map jobCore ∧
      (∀ m, m ≠ n →
        statusOf (processJob onError execOk st n).1.jobs m = statusOf st.jobs m) ∧
      st.completed ⊆ (processJob onError execOk st n).1.completed := by
  have h0 := fresh_of_pending hfind hpend hg
  have hnc : n ∉ st.completed := by
    intro h
    have := (hg.completed_adds n).mp h
    rw [h0.2.2] at this
    exact absurd this (by decide)
  rcases processJob_spec onError execOk st hfind with
    ⟨hdt, hc, heq⟩ | ⟨hdt, hc, heq⟩ | ⟨t, hdt, hok, heq⟩ | ⟨t, hdt, hok, hc, heq⟩ |
    ⟨t, hdt, hok, hc, heq⟩
  · rw [heq]
    exact ⟨hg, rfl, fun m _ => rfl, fun m hm => hm⟩
  · rw [heq]
    refine ⟨?_, jobCore_setJobStatus _ _ _,
      fun m hm => statusOf_setJobStatus_other _ hm _, subset_addCompleted _ _⟩
    exact goodState_step onError execOk [.assign n .failed, .addCompleted n]
      .failed true hg
      (by rw [assignsFor_append, h0.1]; simp [assignsFor, endStatus])
      (fun m hm => by simp [assignsFor, execsFor, addsFor, Ne.symm hm])
      (Or.inr (Or.inl ⟨by rw [assignsFor_append, h0.1]; simp [assignsFor],
        by rw [execsFor_append, h0.2.1]; simp [execsFor],
        by rw [addsFor_append, h0.2.2]; simp [addsFor], hc⟩))
      (by rw [addsFor_append, h0.2.2]; simp [addsFor])
  · rw [heq]
    refine ⟨?_, jobCore_setJobStatus _ _ _,
      fun m hm => statusOf_setJobStatus_other _ hm _, subset_addCompleted _ _⟩
    exact goodState_step onError execOk
      [.exec n t, .assign n .running, .assign n .success, .addCompleted n]
      .success true hg
      (by rw [assignsFor_append, h0.1]; simp [assignsFor, endStatus])
      (fun m hm => by simp [assignsFor, execsFor, addsFor, Ne.symm hm])
      (Or.inr (Or.inr (Or.inl ⟨by rw [assignsFor_append, h0.1]; simp [assignsFor],
        by rw [execsFor_append, h0.2.1]; simp [execsFor],
        by rw [addsFor_append, h0.2.2]; simp [addsFor], hok⟩)))
      (by rw [addsFor_append, h0.2.2]; simp [addsFor])
  · rw [heq]
    refine ⟨?_, jobCore_setJobStatus _ _ _,
      fun m hm => statusOf_setJobStatus_other _ hm _, fun m hm => hm⟩
    exact goodState_step onError execOk
      [.exec n t, .assign n .running, .assign n .failed]
      .failed false hg
      (by rw [assignsFor_append, h0.1]; simp [assignsFor, endStatus])
      (fun m hm => by simp [assignsFor, execsFor, addsFor, Ne.symm hm])
      (Or.inr (Or.inr (Or.inr (Or.inl
        ⟨by rw [assignsFor_append, h0.1]; simp [assignsFor],
        by rw [execsFor_append, h0.2.1]; simp [execsFor],
        by rw [addsFor_append, h0.2.2]; simp [addsFor], hok, hc⟩))))
      (by rw [addsFor_append, h0.2.2]; simp [addsFor, hnc])
  · rw [heq]
    refine ⟨?_, jobCore_setJobStatus _ _ _,
      fun m hm => statusOf_setJobStatus_other _ hm _, subset_addCompleted _ _⟩
    exact goodState_step onError execOk
      [.exec n t, .assign n .running, .assign n .failed, .assign n .failed,
        .addCompleted n]
      .failed true hg
      (by rw [assignsFor_append, h0.1]; simp [assignsFor, endStatus])
      (fun m hm => by simp [assignsFor, execsFor, addsFor, Ne.symm hm])
      (Or.inr (Or.inr (Or.inr (Or.inr
        ⟨by rw [assignsFor_append, h0.1]; simp [assignsFor],
        by rw [execsFor_append, h0.2.1]; simp [execsFor],
        by rw [addsFor_append, h0.2.2]; simp [addsFor], hok, hc⟩))))
      (by rw [addsFor_append, h0.2.2]; simp [addsFor])

theorem statusOf_pending_find {jobs : List Job} {m : String}
    (h : statusOf jobs m = some .pending) :
    ∃ j, jobs.find? (fun j' => j'.name == m) = some j ∧ j.status = .pending := by
  unfold statusOf at h
  cases hf : jobs.find? (fun j' => j'.name == m) with
  | none => rw [hf] at h; cases h
  | some j =>
    rw [hf] at h
    exact ⟨j, rfl, by simpa using h⟩

theorem find?_name_of_nodup {jobs : List Job} (hnd : (jobNames jobs).Nodup) {j : Job}
    (hj : j ∈ jobs) : jobs.find? (fun j' => j'.name == j.name) = some j := by
  induction jobs with
  | nil => cases hj
  | cons a t ih =>
    have hnds : a.name ∉ jobNames t ∧ (jobNames t).Nodup := by
      simpa [jobNames] using hnd
    rcases List.mem_cons.mp hj with rfl | hj
    · rw [List.find?_cons_of_pos _ (by simp)]
    · have hane : ¬(a.name == j.name) = true := by
        simp only [beq_iff_eq]
        intro h
        exact hnds.1 (h ▸ List.mem_map_of_mem Job.name hj)
      have hstep : (a :: t).find? (fun j' => j'.name == j.name) =
          t.find? (fun j' => j'.name == j.name) :=
        List.find?_cons_of_neg _ hane
      rw [hstep]
      exact ih hnds.2 hj

/-- Every member of the ready snapshot is a pending job of the state. -/
theorem ready_names_pending {st : RunState} {stage : String}
    (hnd : (jobNames st.jobs).Nodup) :
    ∀ n ∈ (get_ready_jobs st.jobs stage st.completed).map Job.name,
      statusOf st.jobs n = some .pending := by
  intro n hn
  obtain ⟨j, hj, rfl⟩ := List.mem_map.mp hn
  have hch := (mem_get_ready_jobs st.jobs stage st.completed j).mp hj
  rw [statusOf, find?_name_of_nodup hnd hch.1, Option.map_some']
  rw [hch.2.2.1]

theorem ready_names_nodup {st : RunState} {stage : String}
    (hnd : (jobNames st.jobs).Nodup) :
    ((get_ready_jobs st.jobs stage st.completed).map Job.name).Nodup := by
  have hsub : List.Sublist ((get_ready_jobs st.jobs stage st.completed).map Job.name)
      (st.jobs.map Job.name) :=
    (List.filter_sublist _).map Job.name
  exact hnd.sublist hsub

/-- Processing a snapshot of distinct pending names preserves the
invariant, the job cores, and only grows the completed-set. -/
theorem processReadyList_preserves (onError : String) (execOk : String → Bool) :
    ∀ (names : List String) (st : RunState),
      GoodState onError execOk st →
      (∀ n ∈ names, statusOf st.jobs n = some .pending) →
      names.Nodup →
      GoodState onError execOk (processReadyList onError execOk st names).1 ∧
        (processReadyList onError execOk st names).1.jobs.map jobCore =
          st.jobs.map jobCore ∧
        st.completed ⊆ (processReadyList onError execOk st names).1.completed
  | [], st, hg, _, _ => ⟨hg, rfl, fun m hm => hm⟩
  | n :: rest, st, hg, hp, hnd => by
    obtain ⟨j, hfind, hpend⟩ := statusOf_pending_find (hp n (by simp))
    have hstep := processJob_preserves onError execOk hfind hpend hg
    rw [processReadyList]
    cases hr2 : (processJob onError execOk st n).2 with
    | some e =>
      simp only [hr2]
      exact ⟨hstep.1, hstep.2.1, hstep.2.2.2⟩
    | none =>
      simp only [hr2]
      have hp' : ∀ m ∈ rest,
          statusOf (processJob onError execOk st n).1.jobs m = some .pending := by
        intro m hm
        have hmn : m ≠ n := by
          rintro rfl
          exact (List.nodup_cons.mp hnd).1 hm
        rw [hstep.2.2.1 m hmn]
        exact hp m (by simp [hm])
      have hrec := processReadyList_preserves onError execOk rest
        (processJob onError execOk st n).1 hstep.1 hp' (List.nodup_cons.mp hnd).2
      refine ⟨hrec.1, hrec.2.1.trans hstep.2.1, ?_⟩
      exact fun m hm => hrec.2.2 (hstep.2.2.2 hm)

/-- The stage readiness loop preserves the invariant, the job cores, and
only grows the completed-set. -/
theorem stageLoop_preserves (onError : String) (execOk : String → Bool) (stage : String) :
    ∀ (fuel : Nat) (st : RunState),
      GoodState onError execOk st →
      GoodState onError execOk (stageLoop onError execOk stage fuel st).1 ∧
        (stageLoop onError execOk stage fuel st).1.jobs.map jobCore =
          st.jobs.map jobCore ∧
        st.completed ⊆ (stageLoop onError execOk stage fuel st).1.completed
  | 0, st, hg => ⟨hg, rfl, fun m hm => hm⟩
  | fuel + 1, st, hg => by
    rw [stageLoop]
    cases hready : (get_ready_jobs st.jobs stage st.completed).isEmpty with
    | true =>
      rw [if_pos rfl]
      exact ⟨hg, rfl, fun m hm => hm⟩
    | false =>
      rw [if_neg (by simp)]
      have hlist := processReadyList_preserves onError execOk
        ((get_ready_jobs st.jobs stage st.completed).map Job.name) st hg
        (ready_names_pending hg.nodup) (ready_names_nodup hg.nodup)
      cases hr2 : (processReadyList onError execOk st
          ((get_ready_jobs st.jobs stage st.completed).map Job.name)).2 with
      | some e =>
        simp only [hr2]
        exact ⟨hlist.1, hlist.2.1, hlist.2.2⟩
      | none =>
        simp only [hr2]
        have hrec := stageLoop_preserves onError execOk stage fuel _ hlist.1
        refine ⟨hrec.1, hrec.2.1.trans hlist.2.1, ?_⟩
        exact fun m hm => hrec.2.2 (hlist.2.2 hm)

/-- The stage iteration preserves the invariant, the job cores, and only
grows the completed-set. -/
theorem runStages_preserves (onError : String) (execOk : String → Bool) :
    ∀ (stages : List String) (st : RunState),
      GoodState onError execOk st →
      GoodState onError execOk (runStages onError execOk stages st).1 ∧
        (runStages onError execOk stages st).1.jobs.map jobCore =
          st.jobs.map jobCore ∧
        st.completed ⊆ (runStages onError execOk stages st).1.completed
  | [], st, hg => ⟨hg, rfl, fun m hm => hm⟩
  | stage :: rest, st, hg => by
    rw [runStages]
    cases hempty : (st.jobs.filter (fun j => j.stage == stage)).isEmpty with
    | true =>
      rw [if_pos rfl]
      exact runStages_preserves onError execOk rest st hg
    | false =>
      rw [if_neg (by simp)]
      have hloop := stageLoop_preserves onError execOk stage (st.jobs.length + 1) st hg
      cases hr2 : (stageLoop onError execOk stage (st.jobs.length + 1) st).2 with
      | some e =>
        simp only [hr2]
        exact ⟨hloop.1, hloop.2.1, hloop.2.2⟩
      | none =>
        simp only [hr2]
        have hrec := runStages_preserves onError execOk rest _ hloop.1
        refine ⟨hrec.1, hrec.2.1.trans hloop.2.1, ?_⟩
        exact fun m hm => hrec.2.2 (hloop.2.2 hm)

theorem goodState_init (onError : String) (execOk : String → Bool) (jobs : List Job)
    (hnd : (jobNames jobs).Nodup) (hp : ∀ j ∈ jobs, j.status = .pending) :
    GoodState onError execOk (initState jobs) := by
  refine ⟨hnd, ?_, ?_, ?_⟩
  · intro j hj
    rw [hp j hj]
    rfl
  · intro n
    exact Or.inl ⟨rfl, rfl, rfl⟩
  · intro n
    simp [initState, addsFor]

theorem statusPath_of_historyOK {onError : String} {execOk : String → Bool}
    {n : String} {tr : List Event} (h : historyOK onError execOk n tr) :
    (statusPath n tr = [.pending] ∨
      statusPath n tr = [.pending, .running, .success] ∨
      statusPath n tr = [.pending, .running, .failed] ∨
      (statusPath n tr = [.pending, .failed] ∧ onError = "continue")) ∧
      execsFor n tr ≤ 1 ∧ addsFor n tr ≤ 1 := by
  rcases h with ⟨ha, he, hd⟩ | ⟨ha, he, hd, hc⟩ | ⟨ha, he, hd, _⟩ |
    ⟨ha, he, hd, _, _⟩ | ⟨ha, he, hd, _, hc⟩
  · exact ⟨Or.inl (by rw [statusPath, ha]; rfl), by rw [he]; exact Nat.zero_le 1,
      by rw [hd]; exact Nat.zero_le 1⟩
  · exact ⟨Or.inr (Or.inr (Or.inr ⟨by rw [statusPath, ha]; rfl, hc⟩)),
      by rw [he]; exact Nat.zero_le 1, by rw [hd]⟩
  · exact ⟨Or.inr (Or.inl (by rw [statusPath, ha]; rfl)), by rw [he], by rw [hd]⟩
  · exact ⟨Or.inr (Or.inr (Or.inl (by rw [statusPath, ha]; rfl))), by rw [he],
      by rw [hd]; exact Nat.zero_le 1⟩
  · exact ⟨Or.inr (Or.inr (Or.inl (by rw [statusPath, ha]; rfl))), by rw [he],
      by rw [hd]⟩

/-! Completed-set monotonicity, for arbitrary driver states. -/

theorem processJob_mono (onError : String) (execOk : String → Bool) (st : RunState)
    (n : String) : st.completed ⊆ (processJob onError execOk st n).1.completed := by
  cases hfind : st.jobs.find? (fun j' => j'.name == n) with
  | none =>
    intro m hm
    simpa [processJob, hfind] using hm
  | some j =>
    rcases processJob_spec onError execOk st hfind with
      ⟨_, _, heq⟩ | ⟨_, _, heq⟩ | ⟨t, _, _, heq⟩ | ⟨t, _, _, _, heq⟩ |
      ⟨t, _, _, _, heq⟩ <;> rw [heq]
    · exact fun m hm => hm
    · exact subset_addCompleted _ _
    · exact subset_addCompleted _ _
    · exact fun m hm => hm
    · exact subset_addCompleted _ _

theorem processReadyList_mono (onError : String) (execOk : String → Bool) :
    ∀ (names : List String) (st : RunState),
      st.completed ⊆ (processReadyList onError execOk st names).1.completed
  | [], st => fun m hm => hm
  | n :: rest, st => by
    rw [processReadyList]
    cases hr2 : (processJob onError execOk st n).2 with
    | some e =>
      simp only [hr2]
      exact processJob_mono onError execOk st n
    | none =>
      simp only [hr2]
      exact fun m hm =>
        processReadyList_mono onError execOk rest _ (processJob_mono onError execOk st n hm)

theorem stageLoop_mono (onError : String) (execOk : String → Bool) (stage : String) :
    ∀ (fuel : Nat) (st : RunState),
      st.completed ⊆ (stageLoop onError execOk stage fuel st).1.completed
  | 0, st => fun m hm => hm
  | fuel + 1, st => by
    rw [stageLoop]
    cases hready : (get_ready_jobs st.jobs stage st.completed).isEmpty with
    | true =>
      rw [if_pos rfl]
      exact fun m hm => hm
    | false =>
      rw [if_neg (by simp)]
      cases hr2 : (processReadyList onError execOk st
          ((get_ready_jobs st.jobs stage st.completed).map Job.name)).2 with
      | some e =>
        simp only [hr2]
        exact processReadyList_mono onError execOk _ st
      | none =>
        simp only [hr2]
        exact fun m hm =>
          stageLoop_mono onError execOk stage fuel _
            (processReadyList_mono onError execOk _ st hm)

theorem runStages_mono (onError : String) (execOk : String → Bool) :
    ∀ (stages : List String) (st : RunState),
      st.completed ⊆ (runStages onError execOk stages st).1.completed
  | [], st => fun m hm => hm
  | stage :: rest, st => by
    rw [runStages]
    cases hempty : (st.jobs.filter (fun j => j.stage == stage)).isEmpty with
    | true =>
      rw [if_pos rfl]
      exact runStages_mono onError execOk rest st
    | false =>
      rw [if_neg (by simp)]
      cases hr2 : (stageLoop onError execOk stage (st.jobs.length + 1) st).2 with
      | some e =>
        simp only [hr2]
        exact stageLoop_mono onError execOk stage _ st
      | none =>
        simp only [hr2]
        exact fun m hm =>
          runStages_mono onError execOk rest _
            (stageLoop_mono onError execOk stage _ st hm)

/-- **C8 (as stated) is false**: a job whose type cannot be determined (no
runner `type`, no matching stage-name heuristic) raises in dispatch before
`status = "running"` is ever assigned; under the `continue` policy the
driver's `except` branch then writes `failed` — the status field goes
`pending → failed` without passing through `running`. -/
theorem C8_counterexample :
    statusPath "w" (runStages "continue" (fun _ => true) ["weird"]
        (initState [{ name := "w", stage := "weird", depends_on := [], runnerType := "" }])).1.trace = [.pending, .failed] ∧
      ([.pending, .failed] : List Status) ∉
        ([[.pending], [.pending, .running, .success],
          [.pending, .running, .failed]] : List (List Status)) := by
  constructor
  · decide
  · decide

/-- **C8 (amended).** Throughout one driver run from freshly constructed
jobs: every job's status chain is `pending`, `pending → running →
success`, `pending → running → failed`, or — only under the `continue`
policy, for a job whose type dispatch raises — `pending → failed`; no job
enters an executor more than once; each name is added to the completed-set
at most once, and the completed-set holds exactly the added names; and
from any driver state the completed-set only grows (nothing is ever
removed). -/
theorem C8_amended_status_machine (onError : String) (execOk : String → Bool)
    (stages : List String) (jobs : List Job)
    (hnd : (jobNames jobs).Nodup) (hp : ∀ j ∈ jobs, j.status = .pending) :
    (∀ n, statusPath n (runStages onError execOk stages (initState jobs)).1.trace
          = [.pending] ∨
        statusPath n (runStages onError execOk stages (initState jobs)).1.trace
          = [.pending, .running, .success] ∨
        statusPath n (runStages onError execOk stages (initState jobs)).1.trace
          = [.pending, .running, .failed] ∨
        (statusPath n (runStages onError execOk stages (initState jobs)).1.trace
          = [.pending, .failed] ∧ onError = "continue")) ∧
      (∀ n, execsFor n (runStages onError execOk stages (initState jobs)).1.trace ≤ 1) ∧
      (∀ n, addsFor n (runStages onError execOk stages (initState jobs)).1.trace ≤ 1) ∧
      (∀ n, n ∈ (runStages onError execOk stages (initState jobs)).1.completed ↔
        0 < addsFor n (runStages onError execOk stages (initState jobs)).1.trace) ∧
      (∀ (st0 : RunState) (m : String), m ∈ st0.completed →
        m ∈ (runStages onError execOk stages st0).1.completed) := by
  have hg := (runStages_preserves onError execOk stages (initState jobs)
    (goodState_init onError execOk jobs hnd hp)).1
  refine ⟨?_, ?_, ?_, hg.completed_adds, ?_⟩
  · intro n
    exact (statusPath_of_historyOK (hg.hist n)).1
  · intro n
    exact (statusPath_of_historyOK (hg.hist n)).2.1
  · intro n
    exact (statusPath_of_historyOK (hg.hist n)).2.2
  · intro st0 m hm
    exact runStages_mono onError execOk stages st0 hm

/-- Witness for the amended C8 at a concrete input: a two-stage pipeline
whose first job fails under `continue` — the failed job's chain is
`pending → running → failed`, the dependent's is `pending → running →
success`, nobody runs twice, and the completed-set is exactly the added
names. -/
theorem C8_witness :
    let jobs : List Job :=
      [{ name := "e", stage := "ext", depends_on := [], runnerType := "reader" },
       { name := "l", stage := "lo", depends_on := ["e"], runnerType := "writer" }]
    (jobNames jobs).Nodup ∧ (∀ j ∈ jobs, j.status = .pending) ∧
      (statusPath "e" (runStages "continue" (fun n => n != "e") ["ext", "lo"]
          (initState jobs)).1.trace = [.pending, .running, .failed]) ∧
      (execsFor "l" (runStages "continue" (fun n => n != "e") ["ext", "lo"]
          (initState jobs)).1.trace ≤ 1) := by
  intro jobs
  have h := C8_amended_status_machine "continue" (fun n => n != "e") ["ext", "lo"]
    jobs (by decide) (by decide)
  refine ⟨by decide, by decide, ?_, h.2.1 "l"⟩
  rcases h.1 "e" with h1 | h1 | h1 | ⟨h1, _⟩ <;>
    first
      | exact absurd h1 (by decide)
      | exact h1

/-! ## The error policy (C3)

Three facts: an unrecognised `on_error` value takes the same `else: raise`
path as `"stop"`; under `"continue"` no exception ever propagates, a
raising job ends `failed` and completed; and under `"stop"` the first
raising job aborts the run with nothing executed after it. -/

theorem processJob_policy_eq {p : String} (h1 : p ≠ "stop") (h2 : p ≠ "continue")
    (execOk : String → Bool) (st : RunState) (n : String) :
    processJob p execOk st n = processJob "stop" execOk st n := by
  cases hfind : st.jobs.find? (fun j' => j'.name == n) with
  | none => simp only [processJob, hfind]
  | some j =>
    simp only [processJob, hfind]
    cases hdt : determineJobType j.stage j.runnerType with
    | none =>
      simp only [hdt]
      rw [handleJobError_not_continue h2, handleJobError_not_continue (by decide)]
    | some t =>
      simp only [hdt]
      cases hr : (execUpdate execOk st n t).2 with
      | true =>
        simp only [hr, if_true]
        rw [handleJobError_not_continue h2, handleJobError_not_continue (by decide)]
      | false =>
        simp only [hr, Bool.false_eq_true, if_false]

theorem processReadyList_policy_eq {p : String} (h1 : p ≠ "stop") (h2 : p ≠ "continue")
    (execOk : String → Bool) :
    ∀ (names : List String) (st : RunState),
      processReadyList p execOk st names = processReadyList "stop" execOk st names
  | [], st => rfl
  | n :: rest, st => by
    rw [processReadyList, processReadyList, processJob_policy_eq h1 h2]
    cases (processJob "stop" execOk st n).2 with
    | some e => rfl
    | none => exact processReadyList_policy_eq h1 h2 execOk rest _

theorem stageLoop_policy_eq {p : String} (h1 : p ≠ "stop") (h2 : p ≠ "continue")
    (execOk : String → Bool) (stage : String) :
    ∀ (fuel : Nat) (st : RunState),
      stageLoop p execOk stage fuel st = stageLoop "stop" execOk stage fuel st
  | 0, st => rfl
  | fuel + 1, st => by
    rw [stageLoop, stageLoop]
    cases (get_ready_jobs st.jobs stage st.completed).isEmpty with
    | true => rfl
    | false =>
      simp only [Bool.false_eq_true, if_false]
      rw [processReadyList_policy_eq h1 h2]
      cases (processReadyList "stop" execOk st
          ((get_ready_jobs st.jobs stage st.completed).map Job.name)).2 with
      | some e => rfl
      | none => exact stageLoop_policy_eq h1 h2 execOk stage fuel _

theorem runStages_policy_eq {p : String} (h1 : p ≠ "stop") (h2 : p ≠ "continue")
    (execOk : String → Bool) :
    ∀ (stages : List String) (st : RunState),
      runStages p execOk stages st = runStages "stop" execOk stages st
  | [], st => rfl
  | stage :: rest, st => by
    rw [runStages, runStages]
    cases (st.jobs.filter (fun j => j.stage == stage)).isEmpty with
    | true =>
      simp only [if_true]
      exact runStages_policy_eq h1 h2 execOk rest st
    | false =>
      simp only [Bool.false_eq_true, if_false]
      rw [stageLoop_policy_eq h1 h2]
      cases (stageLoop "stop" execOk stage (st.jobs.length + 1) st).2 with
      | some e => rfl
      | none => exact runStages_policy_eq h1 h2 execOk rest _

theorem processJob_continue_noabort (execOk : String → Bool) (st : RunState)
    (n : String) : (processJob "continue" execOk st n).2 = none := by
  cases hfind : st.jobs.find? (fun j' => j'.name == n) with
  | none => simp only [processJob, hfind]
  | some j =>
    simp only [processJob, hfind]
    cases hdt : determineJobType j.stage j.runnerType with
    | none =>
      simp only [hdt]
      rw [handleJobError_continue]
    | some t =>
      simp only [hdt]
      cases hr : (execUpdate execOk st n t).2 with
      | true =>
        simp only [hr, if_true]
        rw [handleJobError_continue]
      | false =>
        simp only [hr, Bool.false_eq_true, if_false]

theorem processReadyList_continue_noabort (execOk : String → Bool) :
    ∀ (names : List String) (st : RunState),
      (processReadyList "continue" execOk st names).2 = none
  | [], st => rfl
  | n :: rest, st => by
    rw [processReadyList]
    rw [show (processJob "continue" execOk st n).2 = none from
      processJob_continue_noabort execOk st n]
    exact processReadyList_continue_noabort execOk rest _

theorem stageLoop_continue_noabort (execOk : String → Bool) (stage : String) :
    ∀ (fuel : Nat) (st : RunState),
      (stageLoop "continue" execOk stage fuel st).2 = none
  | 0, st => rfl
  | fuel + 1, st => by
    rw [stageLoop]
    cases (get_ready_jobs st.jobs stage st.completed).isEmpty with
    | true => rfl
    | false =>
      simp only [Bool.false_eq_true, if_false]
      rw [show (processReadyList "continue" execOk st
          ((get_ready_jobs st.jobs stage st.completed).map Job.name)).2 = none from
        processReadyList_continue_noabort execOk _ st]
      exact stageLoop_continue_noabort execOk stage fuel _

theorem runStages_continue_noabort (execOk : String → Bool) :
    ∀ (stages : List String) (st : RunState),
      (runStages "continue" execOk stages st).2 = none
  | [], st => rfl
  | stage :: rest, st => by
    rw [runStages]
    cases (st.jobs.filter (fun j => j.stage == stage)).isEmpty with
    | true =>
      simp only [if_true]
      exact runStages_continue_noabort execOk rest st
    | false =>
      simp only [Bool.false_eq_true, if_false]
      rw [show (stageLoop "continue" execOk stage (st.jobs.length + 1) st).2 = none from
        stageLoop_continue_noabort execOk stage _ st]
      exact runStages_continue_noabort execOk rest _

/-- Under `continue`, a job whose executor raised ends `failed` and its
name is in the completed-set. -/
theorem continue_raised_failed_completed (execOk : String → Bool)
    (stages : List String) (jobs : List Job)
    (hnd : (jobNames jobs).Nodup) (hp : ∀ j ∈ jobs, j.status = .pending) :
    ∀ j ∈ (runStages "continue" execOk stages (initState jobs)).1.jobs,
      execOk j.name = false →
      0 < execsFor j.name (runStages "continue" execOk stages (initState jobs)).1.trace →
      j.status = .failed ∧
        j.name ∈ (runStages "continue" execOk stages (initState jobs)).1.completed := by
  intro j hj hok hex
  have hg := (runStages_preserves "continue" execOk stages (initState jobs)
    (goodState_init _ _ jobs hnd hp)).1
  rcases hg.hist j.name with h | h | h | h | h
  · rw [h.2.1] at hex; exact absurd hex (by decide)
  · rw [h.2.1] at hex; exact absurd hex (by decide)
  · rw [h.2.2.2] at hok; cases hok
  · exact absurd rfl h.2.2.2.2
  · constructor
    · rw [hg.status_trace j hj, h.1]
      rfl
    · refine (hg.completed_adds j.name).mpr ?_
      rw [h.2.2.1]
      exact Nat.one_pos

/-! ### Oracle-independence of the `continue` execution schedule

The *skeleton* of a driver state: each job's immutable core plus whether
it is still pending, the completed-set, and the names executed so far.
Readiness, dispatch and (under `continue`) the whole schedule depend only
on the skeleton, so which jobs fail cannot change which jobs execute. -/

/-- A job's core plus its pending flag. -/
def jobSkel (j : Job) : (String × String × List String × String) × Bool :=
  (jobCore j, j.status == Status.pending)

/-- The schedule-relevant projection of a driver state. -/
def skel (st : RunState) :
    List ((String × String × List String × String) × Bool) ×
      List String × List String :=
  (st.jobs.map jobSkel, st.completed, execNames st.trace)

theorem execNames_append (tr1 tr2 : List Event) :
    execNames (tr1 ++ tr2) = execNames tr1 ++ execNames tr2 :=
  List.filterMap_append tr1 tr2 _

theorem jobSkel_eq_iff {a b : Job} (h : jobSkel a = jobSkel b) :
    a.name = b.name ∧ a.stage = b.stage ∧ a.depends_on = b.depends_on ∧
      a.runnerType = b.runnerType ∧
      (a.status == Status.pending) = (b.status == Status.pending) := by
  unfold jobSkel jobCore at h
  simp only [Prod.mk.injEq] at h
  exact ⟨h.1.1, h.1.2.1, h.1.2.2.1, h.1.2.2.2, h.2⟩

theorem ready_names_skel_eq :
    ∀ (l1 l2 : List Job), l1.map jobSkel = l2.map jobSkel →
      ∀ (s : String) (c : List String),
        (get_ready_jobs l1 s c).map Job.name = (get_ready_jobs l2 s c).map Job.name
  | [], [], _, _, _ => rfl
  | [], b :: t2, h, _, _ => by simp at h
  | a :: t1, [], h, _, _ => by simp at h
  | a :: t1, b :: t2, h, s, c => by
    simp only [List.map_cons, List.cons.injEq] at h
    obtain ⟨hn, hs, hd, hrt, hp⟩ := jobSkel_eq_iff h.1
    unfold get_ready_jobs
    simp only [List.filter_cons]
    have hpred : (a.stage == s && a.status == Status.pending &&
          a.depends_on.all (fun d => c.contains d))
        = (b.stage == s && b.status == Status.pending &&
          b.depends_on.all (fun d => c.contains d)) := by
      rw [hs, hd, hp]
    rw [hpred]
    have hrec := ready_names_skel_eq t1 t2 h.2 s c
    unfold get_ready_jobs at hrec
    cases hb : (b.stage == s && b.status == Status.pending &&
        b.depends_on.all (fun d => c.contains d)) with
    | false =>
      simp only [Bool.false_eq_true, if_false]
      exact hrec
    | true =>
      simp only [if_true, List.map_cons]
      rw [hn, hrec]

theorem isEmpty_eq_of_map_name_eq {l1 l2 : List Job}
    (h : l1.map Job.name = l2.map Job.name) : l1.isEmpty = l2.isEmpty := by
  cases l1 <;> cases l2 <;> simp_all

theorem find?_skel_eq :
    ∀ (l1 l2 : List Job), l1.map jobSkel = l2.map jobSkel → ∀ (n : String),
      Option.map jobSkel (l1.find? (fun j => j.name == n)) =
        Option.map jobSkel (l2.find? (fun j => j.name == n))
  | [], [], _, _ => rfl
  | [], b :: t2, h, _ => by simp at h
  | a :: t1, [], h, _ => by simp at h
  | a :: t1, b :: t2, h, n => by
    simp only [List.map_cons, List.cons.injEq] at h
    obtain ⟨hn, _, _, _, _⟩ := jobSkel_eq_iff h.1
    by_cases han : a.name = n
    · rw [List.find?_cons_of_pos _ (by simpa using han),
        List.find?_cons_of_pos _ (by simpa using hn ▸ han)]
      simp only [Option.map_some']
      rw [h.1]
    · rw [List.find?_cons_of_neg _ (by simpa using han),
        List.find?_cons_of_neg _ (by simpa using hn ▸ han)]
      exact find?_skel_eq t1 t2 h.2 n

theorem setJobStatus_skel_eq :
    ∀ (l1 l2 : List Job), l1.map jobSkel = l2.map jobSkel →
      ∀ (n : String) (s1 s2 : Status),
        (s1 == Status.pending) = (s2 == Status.pending) →
        (setJobStatus l1 n s1).map jobSkel = (setJobStatus l2 n s2).map jobSkel
  | [], [], _, _, _, _, _ => rfl
  | [], b :: t2, h, _, _, _, _ => by simp at h
  | a :: t1, [], h, _, _, _, _ => by simp at h
  | a :: t1, b :: t2, h, n, s1, s2, hss => by
    simp only [List.map_cons, List.cons.injEq] at h
    obtain ⟨hn, hs, hd, hrt, hp⟩ := jobSkel_eq_iff h.1
    unfold setJobStatus
    simp only [List.map_cons]
    have hrec := setJobStatus_skel_eq t1 t2 h.2 n s1 s2 hss
    unfold setJobStatus at hrec
    by_cases han : a.name = n
    · rw [if_pos han, if_pos (hn ▸ han)]
      refine List.cons_eq_cons.mpr ⟨?_, hrec⟩
      unfold jobSkel jobCore
      simp only [Prod.mk.injEq]
      exact ⟨⟨hn, hs, hd, hrt⟩, hss⟩
    · rw [if_neg han, if_neg (hn ▸ han)]
      exact List.cons_eq_cons.mpr ⟨h.1, hrec⟩

/-- Under `continue`, processing one job yields skeleton-equal states for
any two oracles: whether the executor returns or raises changes only the
failed/success status value, never the pending flag, the completed-set or
the executed names. -/
theorem processJob_skel_eq (ok1 ok2 : String → Bool) (st1 st2 : RunState) (n : String)
    (h : skel st1 = skel st2) :
    skel (processJob "continue" ok1 st1 n).1 =
      skel (processJob "continue" ok2 st2 n).1 := by
  have hcomps : st1.jobs.map jobSkel = st2.jobs.map jobSkel ∧
      st1.completed = st2.completed ∧ execNames st1.trace = execNames st2.trace := by
    unfold skel at h
    simpa [Prod.mk.injEq] using h
  obtain ⟨hjobs, hcomp, hexecn⟩ := hcomps
  have hskel_step : ∀ (s1 s2 : Status), (s1 == Status.pending) = (s2 == Status.pending) →
      ∀ (seg1 seg2 : List Event), execNames seg1 = execNames seg2 →
      skel { jobs := setJobStatus st1.jobs n s1,
             completed := addCompleted st1.completed n,
             trace := st1.trace ++ seg1 } =
      skel { jobs := setJobStatus st2.jobs n s2,
             completed := addCompleted st2.completed n,
             trace := st2.trace ++ seg2 } := by
    intro s1 s2 hss seg1 seg2 hseg
    unfold skel
    simp only [Prod.mk.injEq]
    exact ⟨setJobStatus_skel_eq _ _ hjobs n s1 s2 hss, by rw [hcomp],
      by rw [execNames_append, execNames_append, hexecn, hseg]⟩
  have hf := find?_skel_eq st1.jobs st2.jobs hjobs n
  cases hf1 : st1.jobs.find? (fun j => j.name == n) with
  | none =>
    cases hf2 : st2.jobs.find? (fun j => j.name == n) with
    | none =>
      simp only [processJob, hf1, hf2]
      exact h
    | some j2 =>
      rw [hf1, hf2] at hf
      simp at hf
  | some j1 =>
    cases hf2 : st2.jobs.find? (fun j => j.name == n) with
    | none =>
      rw [hf1, hf2] at hf
      simp at hf
    | some j2 =>
      rw [hf1, hf2] at hf
      simp only [Option.map_some', Option.some.injEq] at hf
      obtain ⟨hn, hs, hd, hrt, hp⟩ := jobSkel_eq_iff hf
      have hdts : determineJobType j1.stage j1.runnerType =
          determineJobType j2.stage j2.runnerType := by rw [hs, hrt]
      rcases processJob_spec "continue" ok1 st1 hf1 with
        ⟨_, hc, _⟩ | ⟨hdt1, _, heq1⟩ | ⟨t1, hdt1, hok1, heq1⟩ |
        ⟨_, _, _, hc, _⟩ | ⟨t1, hdt1, hok1, _, heq1⟩
      · exact absurd rfl hc
      · rcases processJob_spec "continue" ok2 st2 hf2 with
          ⟨_, hc2, _⟩ | ⟨hdt2, _, heq2⟩ | ⟨t2, hdt2, hok2, heq2⟩ |
          ⟨_, _, _, hc2, _⟩ | ⟨t2, hdt2, hok2, _, heq2⟩
        · exact absurd rfl hc2
        · rw [heq1, heq2]
          exact hskel_step _ _ (by decide) _ _ rfl
        · rw [hdt1, hdt2] at hdts; cases hdts
        · exact absurd rfl hc2
        · rw [hdt1, hdt2] at hdts; cases hdts
      · rcases processJob_spec "continue" ok2 st2 hf2 with
          ⟨_, hc2, _⟩ | ⟨hdt2, _, heq2⟩ | ⟨t2, hdt2, hok2, heq2⟩ |
          ⟨_, _, _, hc2, _⟩ | ⟨t2, hdt2, hok2, _, heq2⟩
        · exact absurd rfl hc2
        · rw [hdt1, hdt2] at hdts; cases hdts
        · rw [heq1, heq2]
          exact hskel_step _ _ (by decide) _ _ rfl
        · exact absurd rfl hc2
        · rw [heq1, heq2]
          exact hskel_step _ _ (by decide) _ _ rfl
      · exact absurd rfl hc
      · rcases processJob_spec "continue" ok2 st2 hf2 with
          ⟨_, hc2, _⟩ | ⟨hdt2, _, heq2⟩ | ⟨t2, hdt2, hok2, heq2⟩ |
          ⟨_, _, _, hc2, _⟩ | ⟨t2, hdt2, hok2, _, heq2⟩
        · exact absurd rfl hc2
        · rw [hdt1, hdt2] at hdts; cases hdts
        · rw [heq1, heq2]
          exact hskel_step _ _ (by decide) _ _ rfl
        · exact absurd rfl hc2
        · rw [heq1, heq2]
          exact hskel_step _ _ (by decide) _ _ rfl


theorem processReadyList_skel_eq (ok1 ok2 : String → Bool) :
    ∀ (names : List String) (st1 st2 : RunState), skel st1 = skel st2 →
      skel (processReadyList "continue" ok1 st1 names).1 =
        skel (processReadyList "continue" ok2 st2 names).1
  | [], st1, st2, h => h
  | n :: rest, st1, st2, h => by
    rw [processReadyList, processReadyList]
    simp only [processJob_continue_noabort]
    exact processReadyList_skel_eq ok1 ok2 rest _ _
      (processJob_skel_eq ok1 ok2 st1 st2 n h)

theorem filter_stage_skel_eq :
    ∀ (l1 l2 : List Job), l1.map jobSkel = l2.map jobSkel → ∀ (s : String),
      (l1.filter (fun j => j.stage == s)).isEmpty =
        (l2.filter (fun j => j.stage == s)).isEmpty
  | [], [], _, _ => rfl
  | [], b :: t2, h, _ => by simp at h
  | a :: t1, [], h, _ => by simp at h
  | a :: t1, b :: t2, h, s => by
    simp only [List.map_cons, List.cons.injEq] at h
    obtain ⟨_, hs, _, _, _⟩ := jobSkel_eq_iff h.1
    simp only [List.filter_cons, hs]
    cases hb : (b.stage == s) with
    | false =>
      simp only [Bool.false_eq_true, if_false]
      exact filter_stage_skel_eq t1 t2 h.2 s
    | true =>
      simp only [if_true, List.isEmpty_cons]

theorem stageLoop_skel_eq (ok1 ok2 : String → Bool) (stage : String) :
    ∀ (fuel : Nat) (st1 st2 : RunState), skel st1 = skel st2 →
      skel (stageLoop "continue" ok1 stage fuel st1).1 =
        skel (stageLoop "continue" ok2 stage fuel st2).1
  | 0, st1, st2, h => h
  | fuel + 1, st1, st2, h => by
    have hcomps : st1.jobs.map jobSkel = st2.jobs.map jobSkel ∧
        st1.completed = st2.completed ∧ execNames st1.trace = execNames st2.trace := by
      unfold skel at h
      simpa [Prod.mk.injEq] using h
    obtain ⟨hjobs, hcomp, _⟩ := hcomps
    have hnames : (get_ready_jobs st1.jobs stage st1.completed).map Job.name =
        (get_ready_jobs st2.jobs stage st2.completed).map Job.name := by
      rw [hcomp]
      exact ready_names_skel_eq st1.jobs st2.jobs hjobs stage st2.completed
    have hemp : (get_ready_jobs st1.jobs stage st1.completed).isEmpty =
        (get_ready_jobs st2.jobs stage st2.completed).isEmpty :=
      isEmpty_eq_of_map_name_eq hnames
    rw [stageLoop, stageLoop]
    cases he : (get_ready_jobs st2.jobs stage st2.completed).isEmpty with
    | true =>
      rw [hemp, he]
      simp only [if_true]
      exact h
    | false =>
      rw [hemp, he]
      simp only [Bool.false_eq_true, if_false]
      rw [hnames]
      simp only [processReadyList_continue_noabort]
      exact stageLoop_skel_eq ok1 ok2 stage fuel _ _
        (processReadyList_skel_eq ok1 ok2 _ st1 st2 h)

theorem runStages_skel_eq (ok1 ok2 : String → Bool) :
    ∀ (stages : List String) (st1 st2 : RunState), skel st1 = skel st2 →
      skel (runStages "continue" ok1 stages st1).1 =
        skel (runStages "continue" ok2 stages st2).1
  | [], st1, st2, h => h
  | stage :: rest, st1, st2, h => by
    have hcomps : st1.jobs.map jobSkel = st2.jobs.map jobSkel ∧
        st1.completed = st2.completed ∧ execNames st1.trace = execNames st2.trace := by
      unfold skel at h
      simpa [Prod.mk.injEq] using h
    obtain ⟨hjobs, _, _⟩ := hcomps
    have hlen : st1.jobs.length = st2.jobs.length := by
      have := congrArg List.length hjobs
      simpa using this
    rw [runStages, runStages]
    have hemp := filter_stage_skel_eq st1.jobs st2.jobs hjobs stage
    cases he : (st2.jobs.filter (fun j => j.stage == stage)).isEmpty with
    | true =>
      rw [hemp, he]
      simp only [if_true]
      exact runStages_skel_eq ok1 ok2 rest st1 st2 h
    | false =>
      rw [hemp, he]
      simp only [Bool.false_eq_true, if_false]
      rw [hlen]
      simp only [stageLoop_continue_noabort]
      exact runStages_skel_eq ok1 ok2 rest _ _
        (stageLoop_skel_eq ok1 ok2 stage (st2.jobs.length + 1) st1 st2 h)



/-! ### Abort behavior of the `stop` policy -/

theorem statusOf_setJobStatus_self {jobs : List Job} {n : String} {j : Job}
    (hfind : jobs.find? (fun j' => j'.name == n) = some j) (s : Status) :
    statusOf (setJobStatus jobs n s) n = some s := by
  induction jobs with
  | nil => cases hfind
  | cons a t ih =>
    rw [setJobStatus, List.map_cons]
    by_cases ha : a.name = n
    · rw [if_pos ha, statusOf, List.find?_cons_of_pos _ (by simpa using ha)]
      rfl
    · rw [if_neg ha, statusOf, List.find?_cons_of_neg _ (by simpa using ha)]
      rw [List.find?_cons_of_neg _ (by simpa using ha)] at hfind
      exact ih hfind

theorem hdet_of_core_eq {l1 l2 : List Job}
    (h : l1.map jobCore = l2.map jobCore)
    (hd : ∀ j ∈ l2, (determineJobType j.stage j.runnerType).isSome = true) :
    ∀ j ∈ l1, (determineJobType j.stage j.runnerType).isSome = true := by
  intro j hj
  have hmem : jobCore j ∈ l2.map jobCore := h ▸ List.mem_map_of_mem jobCore hj
  obtain ⟨j2, hj2, hc⟩ := List.mem_map.mp hmem
  have hcs : j2.stage = j.stage ∧ j2.runnerType = j.runnerType := by
    unfold jobCore at hc
    simp only [Prod.mk.injEq] at hc
    exact ⟨hc.2.1, hc.2.2.2⟩
  rw [← hcs.1, ← hcs.2]
  exact hd j2 hj2

/-- Under `stop`, processing one dispatchable pending job either succeeds
(status `success`, no abort) or raises (status `failed`, abort); either
way the job's name is appended to the executed names. -/
theorem processJob_stop_spec (execOk : String → Bool) {st : RunState} {n : String}
    {j : Job} (hfind : st.jobs.find? (fun j' => j'.name == n) = some j)
    (hdt : (determineJobType j.stage j.runnerType).isSome = true) :
    ((processJob "stop" execOk st n).2 = none ∧ execOk n = true ∧
      (processJob "stop" execOk st n).1.jobs = setJobStatus st.jobs n .success ∧
      execNames (processJob "stop" execOk st n).1.trace =
        execNames st.trace ++ [n]) ∨
    ((∃ e, (processJob "stop" execOk st n).2 = some e) ∧ execOk n = false ∧
      (processJob "stop" execOk st n).1.jobs = setJobStatus st.jobs n .failed ∧
      execNames (processJob "stop" execOk st n).1.trace =
        execNames st.trace ++ [n]) := by
  rcases processJob_spec "stop" execOk st hfind with
    ⟨hdt1, _, heq⟩ | ⟨_, hc, _⟩ | ⟨t, hdt1, hok, heq⟩ | ⟨t, hdt1, hok, _, heq⟩ |
    ⟨_, _, _, hc, _⟩
  · rw [hdt1] at hdt; cases hdt
  · exact absurd hc (by decide)
  · refine Or.inl ⟨by rw [heq], hok, by rw [heq], ?_⟩
    rw [heq]
    show execNames (st.trace ++ _) = _
    rw [execNames_append]
    rfl
  · refine Or.inr ⟨⟨PipeError.jobException n, by rw [heq]⟩, hok, by rw [heq], ?_⟩
    rw [heq]
    show execNames (st.trace ++ _) = _
    rw [execNames_append]
    rfl
  · exact absurd hc (by decide)

/-- Under `stop`, processing a ready snapshot leaves the failed-set
unchanged when no job raises, and otherwise aborts at the first raising
job: that job alone becomes `failed` and is the last executed name. -/
theorem processReadyList_stop (execOk : String → Bool) :
    ∀ (names : List String) (st : RunState),
      GoodState "stop" execOk st →
      (∀ n ∈ names, statusOf st.jobs n = some .pending) →
      names.Nodup →
      (∀ j ∈ st.jobs, (determineJobType j.stage j.runnerType).isSome = true) →
      ((processReadyList "stop" execOk st names).2 = none →
        ∀ m, (statusOf (processReadyList "stop" execOk st names).1.jobs m =
            some .failed ↔ statusOf st.jobs m = some .failed)) ∧
      (∀ e, (processReadyList "stop" execOk st names).2 = some e →
        ∃ n, execOk n = false ∧
          statusOf (processReadyList "stop" execOk st names).1.jobs n =
            some .failed ∧
          (∀ m, m ≠ n →
            (statusOf (processReadyList "stop" execOk st names).1.jobs m =
              some .failed ↔ statusOf st.jobs m = some .failed)) ∧
          ∃ pre, execNames (processReadyList "stop" execOk st names).1.trace =
            execNames st.trace ++ pre ++ [n])
  | [], st, _, _, _, _ => by
    refine ⟨fun _ m => Iff.rfl, fun e he => ?_⟩
    cases he
  | n :: rest, st, hg, hp, hnd, hdet => by
    obtain ⟨j, hfind, hpend⟩ := statusOf_pending_find (hp n (by simp))
    have hjmem : j ∈ st.jobs := List.mem_of_find?_eq_some hfind
    have hstep := processJob_preserves "stop" execOk hfind hpend hg
    rcases processJob_stop_spec execOk hfind (hdet j hjmem) with
      ⟨hr2, hok, hjobs', hexec'⟩ | ⟨⟨e0, hr2⟩, hok, hjobs', hexec'⟩
    · -- job succeeded: recurse on rest
      rw [processReadyList]
      simp only [hr2]
      have hstatn : statusOf (processJob "stop" execOk st n).1.jobs n =
          some .success := by
        rw [hjobs']
        exact statusOf_setJobStatus_self hfind .success
      have hstep_iff : ∀ m,
          (statusOf (processJob "stop" execOk st n).1.jobs m = some .failed ↔
            statusOf st.jobs m = some .failed) := by
        intro m
        by_cases hm : m = n
        · subst hm
          rw [hstatn, hp m (by simp)]
          constructor
          · intro hx; cases hx
          · intro hx; cases hx
        · rw [hstep.2.2.1 m hm]
      have hp' : ∀ m ∈ rest,
          statusOf (processJob "stop" execOk st n).1.jobs m = some .pending := by
        intro m hm
        have hmn : m ≠ n := by
          rintro rfl
          exact (List.nodup_cons.mp hnd).1 hm
        rw [hstep.2.2.1 m hmn]
        exact hp m (by simp [hm])
      have hdet' := hdet_of_core_eq hstep.2.1 hdet
      have hrec := processReadyList_stop execOk rest (processJob "stop" execOk st n).1
        hstep.1 hp' (List.nodup_cons.mp hnd).2 hdet'
      refine ⟨?_, ?_⟩
      · intro hr m
        rw [hrec.1 hr m, hstep_iff m]
      · intro e he
        obtain ⟨n', hok', hfail', hiff', pre', hpre'⟩ := hrec.2 e he
        refine ⟨n', hok', hfail', ?_, [n] ++ pre', ?_⟩
        · intro m hm
          rw [hiff' m hm, hstep_iff m]
        · rw [hpre', hexec']
          simp
    · -- job raised: abort here
      rw [processReadyList]
      simp only [hr2]
      constructor
      · intro hr
        cases hr
      · intro e he
        refine ⟨n, hok, ?_, ?_, [], ?_⟩
        · rw [hjobs']
          exact statusOf_setJobStatus_self hfind .failed
        · intro m hm
          rw [hstep.2.2.1 m hm]
        · rw [hexec']
          simp



theorem processJob_trace_extend (onError : String) (execOk : String → Bool)
    (st : RunState) (n : String) :
    ∃ ext, (processJob onError execOk st n).1.trace = st.trace ++ ext := by
  cases hfind : st.jobs.find? (fun j' => j'.name == n) with
  | none =>
    refine ⟨[], ?_⟩
    simp [processJob, hfind]
  | some j =>
    rcases processJob_spec onError execOk st hfind with
      ⟨_, _, heq⟩ | ⟨_, _, heq⟩ | ⟨t, _, _, heq⟩ | ⟨t, _, _, _, heq⟩ |
      ⟨t, _, _, _, heq⟩ <;> rw [heq]
    · exact ⟨[], by simp⟩
    · exact ⟨_, rfl⟩
    · exact ⟨_, rfl⟩
    · exact ⟨_, rfl⟩
    · exact ⟨_, rfl⟩

theorem processReadyList_trace_extend (onError : String) (execOk : String → Bool) :
    ∀ (names : List String) (st : RunState),
      ∃ ext, (processReadyList onError execOk st names).1.trace = st.trace ++ ext
  | [], st => ⟨[], by rw [processReadyList]; simp⟩
  | n :: rest, st => by
    rw [processReadyList]
    obtain ⟨ext1, h1⟩ := processJob_trace_extend onError execOk st n
    cases hr2 : (processJob onError execOk st n).2 with
    | some e =>
      simp only [hr2]
      exact ⟨ext1, h1⟩
    | none =>
      simp only [hr2]
      obtain ⟨ext2, h2⟩ :=
        processReadyList_trace_extend onError execOk rest (processJob onError execOk st n).1
      exact ⟨ext1 ++ ext2, by rw [h2, h1, List.append_assoc]⟩

/-- Under `stop`, the stage readiness loop leaves the failed-set unchanged
when no job raises, else the first raising job alone fails and is the last
executed name. -/
theorem stageLoop_stop (execOk : String → Bool) (stage : String) :
    ∀ (fuel : Nat) (st : RunState),
      GoodState "stop" execOk st →
      (∀ j ∈ st.jobs, (determineJobType j.stage j.runnerType).isSome = true) →
      ((stageLoop "stop" execOk stage fuel st).2 = none →
        ∀ m, (statusOf (stageLoop "stop" execOk stage fuel st).1.jobs m =
          some .failed ↔ statusOf st.jobs m = some .failed)) ∧
      (∀ e, (stageLoop "stop" execOk stage fuel st).2 = some e →
        ∃ n, execOk n = false ∧
          statusOf (stageLoop "stop" execOk stage fuel st).1.jobs n =
            some .failed ∧
          (∀ m, m ≠ n →
            (statusOf (stageLoop "stop" execOk stage fuel st).1.jobs m =
              some .failed ↔ statusOf st.jobs m = some .failed)) ∧
          ∃ pre, execNames (stageLoop "stop" execOk stage fuel st).1.trace =
            execNames st.trace ++ pre ++ [n])
  | 0, st, hg, hdet => by
    constructor
    · intro _ m
      exact Iff.rfl
    · intro e he
      cases he
  | fuel + 1, st, hg, hdet => by
    rw [stageLoop]
    cases hready : (get_ready_jobs st.jobs stage st.completed).isEmpty with
    | true =>
      rw [if_pos rfl]
      constructor
      · intro _ m
        exact Iff.rfl
      · intro e he
        cases he
    | false =>
      rw [if_neg (by simp)]
      have hlist_stop := processReadyList_stop execOk
        ((get_ready_jobs st.jobs stage st.completed).map Job.name) st hg
        (ready_names_pending hg.nodup) (ready_names_nodup hg.nodup) hdet
      have hlist_pres := processReadyList_preserves "stop" execOk
        ((get_ready_jobs st.jobs stage st.completed).map Job.name) st hg
        (ready_names_pending hg.nodup) (ready_names_nodup hg.nodup)
      cases hr2 : (processReadyList "stop" execOk st
          ((get_ready_jobs st.jobs stage st.completed).map Job.name)).2 with
      | some e =>
        simp only [hr2]
        constructor
        · intro hr
          cases hr
        · intro e' he'
          obtain rfl : e = e' := Option.some.inj he'
          exact hlist_stop.2 e hr2
      | none =>
        simp only [hr2]
        have hrec := stageLoop_stop execOk stage fuel
          (processReadyList "stop" execOk st
            ((get_ready_jobs st.jobs stage st.completed).map Job.name)).1
          hlist_pres.1 (hdet_of_core_eq hlist_pres.2.1 hdet)
        obtain ⟨ext1, hext1⟩ := processReadyList_trace_extend "stop" execOk
          ((get_ready_jobs st.jobs stage st.completed).map Job.name) st
        constructor
        · intro hr m
          rw [hrec.1 hr m, hlist_stop.1 hr2 m]
        · intro e he
          obtain ⟨n', hok', hfail', hiff', pre', hpre'⟩ := hrec.2 e he
          refine ⟨n', hok', hfail', ?_, execNames ext1 ++ pre', ?_⟩
          · intro m hm
            rw [hiff' m hm, hlist_stop.1 hr2 m]
          · rw [hpre', hext1, execNames_append]
            simp [List.append_assoc]

theorem stageLoop_trace_extend (onError : String) (execOk : String → Bool)
    (stage : String) :
    ∀ (fuel : Nat) (st : RunState),
      ∃ ext, (stageLoop onError execOk stage fuel st).1.trace = st.trace ++ ext
  | 0, st => ⟨[], by rw [stageLoop]; simp⟩
  | fuel + 1, st => by
    rw [stageLoop]
    cases hready : (get_ready_jobs st.jobs stage st.completed).isEmpty with
    | true =>
      rw [if_pos rfl]
      exact ⟨[], by simp⟩
    | false =>
      rw [if_neg (by simp)]
      obtain ⟨ext1, h1⟩ := processReadyList_trace_extend onError execOk
        ((get_ready_jobs st.jobs stage st.completed).map Job.name) st
      cases hr2 : (processReadyList onError execOk st
          ((get_ready_jobs st.jobs stage st.completed).map Job.name)).2 with
      | some e =>
        simp only [hr2]
        exact ⟨ext1, h1⟩
      | none =>
        simp only [hr2]
        obtain ⟨ext2, h2⟩ := stageLoop_trace_extend onError execOk stage fuel
          (processReadyList onError execOk st
            ((get_ready_jobs st.jobs stage st.completed).map Job.name)).1
        exact ⟨ext1 ++ ext2, by rw [h2, h1, List.append_assoc]⟩

/-- Under `stop`, the whole stage iteration: no raise means no failed
jobs; a raise aborts with exactly the raising job failed and last
executed. -/
theorem runStages_stop (execOk : String → Bool) :
    ∀ (stages : List String) (st : RunState),
      GoodState "stop" execOk st →
      (∀ j ∈ st.jobs, (determineJobType j.stage j.runnerType).isSome = true) →
      ((runStages "stop" execOk stages st).2 = none →
        ∀ m, (statusOf (runStages "stop" execOk stages st).1.jobs m =
          some .failed ↔ statusOf st.jobs m = some .failed)) ∧
      (∀ e, (runStages "stop" execOk stages st).2 = some e →
        ∃ n, execOk n = false ∧
          statusOf (runStages "stop" execOk stages st).1.jobs n = some .failed ∧
          (∀ m, m ≠ n →
            (statusOf (runStages "stop" execOk stages st).1.jobs m =
              some .failed ↔ statusOf st.jobs m = some .failed)) ∧
          ∃ pre, execNames (runStages "stop" execOk stages st).1.trace =
            execNames st.trace ++ pre ++ [n])
  | [], st, hg, hdet => by
    constructor
    · intro _ m
      exact Iff.rfl
    · intro e he
      cases he
  | stage :: rest, st, hg, hdet => by
    rw [runStages]
    cases hempty : (st.jobs.filter (fun j => j.stage == stage)).isEmpty with
    | true =>
      rw [if_pos rfl]
      exact runStages_stop execOk rest st hg hdet
    | false =>
      rw [if_neg (by simp)]
      have hloop_stop := stageLoop_stop execOk stage (st.jobs.length + 1) st hg hdet
      have hloop_pres := stageLoop_preserves "stop" execOk stage (st.jobs.length + 1) st hg
      cases hr2 : (stageLoop "stop" execOk stage (st.jobs.length + 1) st).2 with
      | some e =>
        simp only [hr2]
        constructor
        · intro hr
          cases hr
        · intro e' he'
          obtain rfl : e = e' := Option.some.inj he'
          exact hloop_stop.2 e hr2
      | none =>
        simp only [hr2]
        have hrec := runStages_stop execOk rest
          (stageLoop "stop" execOk stage (st.jobs.length + 1) st).1
          hloop_pres.1 (hdet_of_core_eq hloop_pres.2.1 hdet)
        obtain ⟨ext1, hext1⟩ : ∃ ext,
            (stageLoop "stop" execOk stage (st.jobs.length + 1) st).1.trace =
              st.trace ++ ext := stageLoop_trace_extend "stop" execOk stage _ st
        constructor
        · intro hr m
          rw [hrec.1 hr m, hloop_stop.1 hr2 m]
        · intro e he
          obtain ⟨n', hok', hfail', hiff', pre', hpre'⟩ := hrec.2 e he
          refine ⟨n', hok', hfail', ?_, execNames ext1 ++ pre', ?_⟩
          · intro m hm
            rw [hiff' m hm, hloop_stop.1 hr2 m]
          · rw [hpre', hext1, execNames_append]
            simp [List.append_assoc]


theorem statusOf_not_failed_of_pending {jobs : List Job}
    (hp : ∀ j ∈ jobs, j.status = .pending) (m : String) :
    statusOf jobs m ≠ some .failed := by
  intro h
  unfold statusOf at h
  cases hf : jobs.find? (fun j' => j'.name == m) with
  | none => rw [hf] at h; cases h
  | some j =>
    rw [hf, Option.map_some'] at h
    have hpj := hp j (List.mem_of_find?_eq_some hf)
    rw [hpj] at h
    cases h

/-- **C3.** Whenever a job raises during execution: under `"stop"` the
exception propagates and aborts the run — when every job's type is
dispatchable, the run ends with an error exactly when some job failed, at
most the raising job is `failed`, and it is the last executed job (nothing
runs after it); under `"continue"` no exception ever propagates, the
raising job ends `failed` with its name in the completed-set, and the
executed schedule is identical to the all-success run — so every job
depending on a failed job still executes; any other configured value
(e.g. `"skip"`) takes the same `else: raise` path as `"stop"`, yielding a
pointwise identical run. -/
theorem C3_error_policy (execOk : String → Bool) (stages : List String)
    (jobs : List Job) (hnd : (jobNames jobs).Nodup)
    (hp : ∀ j ∈ jobs, j.status = .pending) :
    (∀ p, p ≠ "stop" → p ≠ "continue" →
      runStages p execOk stages (initState jobs) =
        runStages "stop" execOk stages (initState jobs)) ∧
      (runStages "continue" execOk stages (initState jobs)).2 = none ∧
      (∀ j ∈ (runStages "continue" execOk stages (initState jobs)).1.jobs,
        execOk j.name = false →
        0 < execsFor j.name
          (runStages "continue" execOk stages (initState jobs)).1.trace →
        j.status = .failed ∧
          j.name ∈ (runStages "continue" execOk stages (initState jobs)).1.completed) ∧
      (execNames (runStages "continue" execOk stages (initState jobs)).1.trace =
        execNames
          (runStages "continue" (fun _ => true) stages (initState jobs)).1.trace) ∧
      ((∀ j ∈ jobs, (determineJobType j.stage j.runnerType).isSome = true) →
        (((runStages "stop" execOk stages (initState jobs)).2 = none ↔
          ∀ m, statusOf (runStages "stop" execOk stages (initState jobs)).1.jobs m ≠
            some .failed) ∧
        (∀ e, (runStages "stop" execOk stages (initState jobs)).2 = some e →
          ∃ n, execOk n = false ∧
            statusOf (runStages "stop" execOk stages (initState jobs)).1.jobs n =
              some .failed ∧
            (∀ m, m ≠ n →
              statusOf (runStages "stop" execOk stages (initState jobs)).1.jobs m ≠
                some .failed) ∧
            (execNames
              (runStages "stop" execOk stages (initState jobs)).1.trace).getLast? =
              some n))) := by
  refine ⟨?_, ?_, ?_, ?_, ?_⟩
  · intro p h1 h2
    exact runStages_policy_eq h1 h2 execOk stages (initState jobs)
  · exact runStages_continue_noabort execOk stages (initState jobs)
  · exact continue_raised_failed_completed execOk stages jobs hnd hp
  · have hskel := runStages_skel_eq execOk (fun _ => true) stages
      (initState jobs) (initState jobs) rfl
    exact congrArg (fun x => x.2.2) hskel
  · intro hdet
    have hstop := runStages_stop execOk stages (initState jobs)
      (goodState_init "stop" execOk jobs hnd hp) hdet
    constructor
    · constructor
      · intro hr m h
        exact statusOf_not_failed_of_pending hp m ((hstop.1 hr m).mp h)
      · intro hall
        cases hr : (runStages "stop" execOk stages (initState jobs)).2 with
        | none => rfl
        | some e =>
          obtain ⟨n, _, hfail, _, _⟩ := hstop.2 e hr
          exact absurd hfail (hall n)
    · intro e he
      obtain ⟨n, hok, hfail, hiff, pre, hpre⟩ := hstop.2 e he
      refine ⟨n, hok, hfail, ?_, ?_⟩
      · intro m hm h
        exact statusOf_not_failed_of_pending hp m ((hiff m hm).mp h)
      · rw [hpre]
        show (execNames ([] : List Event) ++ pre ++ [n]).getLast? = some n
        rw [List.append_assoc]
        simp

/-- Job `e` of the witness pipeline (extract stage, no dependencies). -/
def jobE : Job := { name := "e", stage := "ext", depends_on := [], runnerType := "reader" }

/-- Job `l` of the witness pipeline (load stage, depends on `e`). -/
def jobL : Job := { name := "l", stage := "lo", depends_on := ["e"], runnerType := "writer" }

/-- Witness for C3 at a concrete input: job `e` raises; under `continue`
nothing propagates and the dependent `l` still executes (same schedule as
the all-success run); `"skip"` runs exactly like `"stop"`; and under
`"stop"` the run aborts with `e` as the last executed job. -/
theorem C3_witness :
    (runStages "continue" (fun n => n != "e") ["ext", "lo"]
        (initState [jobE, jobL])).2 = none ∧
      (runStages "skip" (fun n => n != "e") ["ext", "lo"] (initState [jobE, jobL])) =
        (runStages "stop" (fun n => n != "e") ["ext", "lo"]
          (initState [jobE, jobL])) ∧
      (execNames (runStages "continue" (fun n => n != "e") ["ext", "lo"]
          (initState [jobE, jobL])).1.trace =
        execNames (runStages "continue" (fun _ => true) ["ext", "lo"]
          (initState [jobE, jobL])).1.trace) := by
  have h := C3_error_policy (fun n => n != "e") ["ext", "lo"] [jobE, jobL]
    (by decide) (by decide)
  exact ⟨h.2.1, h.1 "skip" (by decide) (by decide), h.2.2.2.1⟩

end ETL
